import Mathlib

/-!
Shallow embedding of the computational core of the `gradely-backend`
repository (a Django school-grading service), covering:

* the roster importer (`UploadStudentsView.post` in `gradely/views.py`),
* the quiz statistics cache (`Quiz.update_statistics` in `gradely/models.py`),
* the bulk result upsert (`QuizViewSet.save_results` in `gradely/views.py`),
* the merged per-student result view (`QuizDetailSerializer.get_results`) and
  the per-question item analysis (`QuizDetailSerializer.get_item_analysis`)
  in `gradely/serializers.py`.

Decimal scores are modelled as rationals, database tables as lists of
records, and JSON dictionaries as insertion-ordered association lists.
Fallible Python code (exceptions) is modelled with `Option`/`Except`.
-/

namespace Gradely

/-! ### Byte-wise string comparison

Python string comparison and the SQLite `BINARY` collation used by
`order_by('-student_id')` / `order_by('name')` both compare strings
code-point by code-point.  We model this as a boolean strict order on
`List Char`. -/

/-- Strict code-point lexicographic order on character lists. -/
def strLtL : List Char → List Char → Bool
  | [], [] => false
  | [], _ :: _ => true
  | _ :: _, [] => false
  | a :: as, b :: bs =>
    if a.toNat < b.toNat then true
    else if b.toNat < a.toNat then false
    else strLtL as bs

/-- Strict order on strings (Python `<`, SQLite `ORDER BY`). -/
def strLt (a b : String) : Bool := strLtL a.data b.data

/-- Non-strict order on strings (total, since `strLt` is trichotomous). -/
def strLe (a b : String) : Bool := ! strLt b a

/-! ### Python string primitives

`str.strip`, `str.title`, `str.isdigit`, `int(...)` and the `%06d`
format used by the importer, modelled for ASCII data (all identifiers
and names handled by the claims are ASCII). -/

/-- Characters stripped by Python `str.strip()`. -/
def pyIsSpace (c : Char) : Bool :=
  c = ' ' || c = '\t' || c = '\n' || c = '\r' || c = '\x0b' || c = '\x0c'

/-- Python `str.strip()`: drop leading and trailing whitespace. -/
def pyStrip (s : String) : String :=
  ⟨((s.data.dropWhile pyIsSpace).reverse.dropWhile pyIsSpace).reverse⟩

/-- One step of Python `str.title()`: a letter is uppercased when the
previous character is not a letter, lowercased otherwise. -/
def pyTitleGo : Bool → List Char → List Char
  | _, [] => []
  | prevAlpha, c :: cs =>
    (if c.isAlpha then (if prevAlpha then c.toLower else c.toUpper) else c)
      :: pyTitleGo c.isAlpha cs

/-- Python `str.title()`. -/
def pyTitle (s : String) : String := ⟨pyTitleGo false s.data⟩

/-- Python `str.isdigit()` (ASCII): nonempty and all characters digits. -/
def pyIsDigit (s : String) : Bool := !s.data.isEmpty && s.data.all Char.isDigit

/-- Numeric value of a digit string, as computed by Python `int(...)`. -/
def digitsVal (cs : List Char) : ℕ :=
  cs.foldl (fun acc c => acc * 10 + (c.toNat - 48)) 0

/-- Python `int(s)` on a string: succeeds exactly on (ASCII) digit
strings, raises `ValueError` (modelled as `none`) otherwise. -/
def pyIntNat (cs : List Char) : Option ℕ :=
  if !cs.isEmpty && cs.all Char.isDigit then some (digitsVal cs) else none

/-- The character of a decimal digit. -/
def digCh (d : ℕ) : Char := Char.ofNat (48 + d)

/-- The `k` big-endian decimal digits of `n` (zero padded), for `n < 10 ^ k`. -/
def digitsBE : ℕ → ℕ → List Char
  | 0, _ => []
  | k + 1, n => digCh (n / 10 ^ k) :: digitsBE k (n % 10 ^ k)

/-- Python `f"{n:06d}"`: zero-padded to six digits (numbers of seven or
more digits are printed unpadded, i.e. as their plain representation). -/
def pyFormat06 (n : ℕ) : List Char :=
  if n < 1000000 then digitsBE 6 n else (Nat.repr n).data

/-- A generated student identifier `f"{yearPref}-{seq:06d}"`. -/
def mkId (yearPref : String) (seq : ℕ) : String :=
  ⟨yearPref.data ++ '-' :: pyFormat06 seq⟩

/-- Python `s.split('-')`, on character lists. -/
def splitDashGo : List Char → List Char → List (List Char)
  | acc, [] => [acc.reverse]
  | acc, c :: cs =>
    if c = '-' then acc.reverse :: splitDashGo [] cs
    else splitDashGo (c :: acc) cs

/-- Python `s.split('-')`. -/
def splitDash (cs : List Char) : List (List Char) := splitDashGo [] cs

/-! ### Python `round(x, 1)`

CPython rounds half to even.  `score / total * 100` is modelled as exact
rational arithmetic; `pyRound1` rounds to one decimal place. -/

/-- Round a rational to the nearest integer, halves to even. -/
def roundHalfEven (x : ℚ) : ℤ :=
  let f := Int.floor x
  let r := x - (f : ℚ)
  if r < 1 / 2 then f
  else if 1 / 2 < r then f + 1
  else if f % 2 = 0 then f else f + 1

/-- Python `round(x, 1)`. -/
def pyRound1 (x : ℚ) : ℚ := (roundHalfEven (x * 10) : ℚ) / 10

/-! ### Data model

Records mirroring the Django models in `gradely/models.py`.  Primary
keys are naturals; the `score_obtained` decimal is a rational;
`student_answers` is an insertion-ordered association list standing for
a JSON object. -/

/-- A `Student` row: auto primary key, external code, display name. -/
structure Student where
  id : ℕ
  student_id : String
  name : String
deriving DecidableEq, Repr

/-- One value of a `student_answers` JSON map: a per-question record
whose `correct` flag may be absent (`none`). -/
structure Ans where
  correct : Option Bool
deriving DecidableEq, Repr

/-- A `QuizResult` row (`quiz`/`student` are foreign keys by primary key;
`date_taken` is an opaque timestamp). -/
structure QRow where
  id : ℕ
  quiz : ℕ
  student : ℕ
  score_obtained : ℚ
  student_answers : List (String × Ans)
  date_taken : ℕ
deriving DecidableEq

/-- The statistics cache persisted on a `Quiz` by `update_statistics`. -/
structure Stats where
  mean_score : ℚ
  min_score : ℚ
  max_score : ℚ
  attendees_count : ℕ
deriving DecidableEq, Repr

/-! ### Roster importer (`UploadStudentsView.post`, `gradely/views.py`)

One CSV row as produced by `pd.read_csv`: the `name` cell is `none`
when the cell is empty (pandas yields the float `NaN` there, and
`str(NaN)` is the string `"nan"`). -/

/-- A row of the uploaded spreadsheet. -/
structure CsvRow where
  nameCell : Option String
deriving DecidableEq, Repr

/-- `str(row['name'])` under pandas: an empty cell reads as `NaN` and
stringifies to `"nan"`. -/
def pandasCellStr : Option String → String
  | none => "nan"
  | some s => s

/-- `str(row['name']).strip().title()`. -/
def normName (r : CsvRow) : String := pyTitle (pyStrip (pandasCellStr r.nameCell))

/-- `student_id__startswith=f"{year_prefix}-"`. -/
def idStarts (pre : String) (s : Student) : Bool :=
  pre.data.isPrefixOf s.student_id.data

/-- `order_by('-student_id').first()`: the row whose `student_id` is
greatest in the byte-wise string order. -/
def scanMax (l : List Student) : Option Student :=
  l.foldl
    (fun acc s =>
      match acc with
      | none => some s
      | some t => if strLt t.student_id s.student_id then some s else some t)
    none

/-- `int(last_student.student_id.split('-')[1]) + 1`, or `1` when no
student with the year's id pattern exists; `none` models the
`ValueError` (caught as a 400 response) when the id fragment after the
first dash is not numeric. -/
def codeNextSeq (table : List Student) (yearPref : String) : Option ℕ :=
  match scanMax (table.filter (idStarts (yearPref ++ "-"))) with
  | none => some 1
  | some s => (pyIntNat ((splitDash s.student_id.data).getD 1 [])).map (· + 1)

/-- The sequence number carried by a student's identifier (the digits
after the first dash); meaningful for canonically formatted ids. -/
def seqOf (s : String) : ℕ := digitsVal ((splitDash s.data).getD 1 [])

/-- Stated by the spec: one greater than the *highest existing sequence
number* among students whose identifier starts with the year's pattern,
or 1 if none exist. -/
def specNextSeq (table : List Student) (yearPref : String) : ℕ :=
  let f := table.filter (idStarts (yearPref ++ "-"))
  if f.isEmpty then 1
  else (f.foldl (fun m s => max m (seqOf s.student_id)) 0) + 1

/-- Importer loop state: the global `Student` table, the accumulated
`students_to_create` roster list, the local sequence counter, and the
next auto primary key. -/
structure ImpState where
  table : List Student
  roster : List Student
  seq : ℕ
  nextPk : ℕ
deriving Repr

/-- One iteration of `for index, row in df.iterrows()`: normalize the
name, compute `f"{year_prefix}-{current_seq:06d}"`, then
`Student.objects.get_or_create(name=name, defaults={'student_id': ...})`;
the sequence counter advances only when a row was actually created. -/
def importStep (yearPref : String) (st : ImpState) (row : CsvRow) : ImpState :=
  let nm := normName row
  let newId := mkId yearPref st.seq
  match st.table.find? (fun s => s.name = nm) with
  | some s => { st with roster := st.roster ++ [s] }
  | none =>
    let created : Student := ⟨st.nextPk, newId, nm⟩
    { table := st.table ++ [created]
      roster := st.roster ++ [created]
      seq := st.seq + 1
      nextPk := st.nextPk + 1 }

/-- The whole import transaction: scan for the next sequence number,
then process every row.  Returns the final `Student` table and the list
of students added to the classroom roster; `none` models the exception
path (400 response, atomic transaction rolled back). -/
def importStudents (table : List Student) (yearPref : String) (nextPk : ℕ)
    (rows : List CsvRow) : Option (List Student × List Student) :=
  (codeNextSeq table yearPref).map fun s0 =>
    let fin := rows.foldl (importStep yearPref) ⟨table, [], s0, nextPk⟩
    (fin.table, fin.roster)

/-! ### `Quiz.update_statistics` (`gradely/models.py`) -/

/-- `Quiz.update_statistics`, as a function of the quiz's list of
`score_obtained` values: zeros on an empty result set, otherwise
`len` / `max` / `min` / `sum ... / len`. -/
def updateStatistics : List ℚ → Stats
  | [] => ⟨0, 0, 0, 0⟩
  | x :: xs =>
    { mean_score := ((x :: xs).foldl (· + ·) 0) / (x :: xs).length
      min_score := xs.foldl min x
      max_score := xs.foldl max x
      attendees_count := (x :: xs).length }

/-- `self.results.all()` for a quiz: its rows' scores. -/
def scoresForQuiz (rows : List QRow) (q : ℕ) : List ℚ :=
  (rows.filter (fun r => r.quiz = q)).map (·.score_obtained)

/-! ### `QuizViewSet.save_results` (`gradely/views.py`) -/

/-- One incoming entry of the `results` payload.  `student_id` is `none`
when the key is absent (`item.get('student_id')`); `student_answers`
already carries the `{}` default of `item.get('student_answers', {})`. -/
structure Entry where
  student_id : Option String
  score : ℚ
  student_answers : List (String × Ans)
deriving DecidableEq, Repr

/-- Side-effect trace of one `save_results` call: an upsert per matched
entry (carrying the student's primary key) and the statistics
recomputations. -/
inductive Ev where
  | upsert (student : ℕ)
  | recompute
deriving DecidableEq, Repr

/-- `QuizResult.objects.update_or_create(quiz=..., student=..., defaults=...)`:
overwrite `score_obtained` and `student_answers` on the existing row for
the pair, or append a fresh row.  Returns the new table and the
`created` flag. -/
def updateOrCreate (rows : List QRow) (q st : ℕ) (sc : ℚ)
    (ans : List (String × Ans)) (nid now : ℕ) : List QRow × Bool :=
  if rows.any (fun r => r.quiz = q && r.student = st) then
    (rows.map (fun r =>
      if r.quiz = q && r.student = st then
        { r with score_obtained := sc, student_answers := ans }
      else r), false)
  else
    (rows ++ [⟨nid, q, st, sc, ans, now⟩], true)

/-- Loop state of `save_results`: result table, saved counter, error
list, next fresh primary key, event trace. -/
structure SaveState where
  rows : List QRow
  saved : ℕ
  errors : List String
  nid : ℕ
  trace : List Ev

/-- The error string recorded for an unregistered external code. -/
def errMsg (sid : String) : String :=
  "Student ID '" ++ sid ++ "' not registered in the system."

/-- One iteration of the `for item in results_data` loop: skip when
`student_id` is falsy (absent or empty), record an error when no
`Student` carries the code, otherwise upsert and count the save. -/
def stepEntry (students : List Student) (q now : ℕ)
    (st : SaveState) (e : Entry) : SaveState :=
  match e.student_id with
  | none => st
  | some sid =>
    if sid = "" then st
    else
      match students.find? (fun s => s.student_id = sid) with
      | none => { st with errors := st.errors ++ [errMsg sid] }
      | some s =>
        let (rows', created) :=
          updateOrCreate st.rows q s.id e.score e.student_answers st.nid now
        { rows := rows'
          saved := st.saved + 1
          errors := st.errors
          nid := if created then st.nid + 1 else st.nid
          trace := st.trace ++ [Ev.upsert s.id] }

/-- Result of a whole `save_results` call: the final table, the
response payload (`saved`, `errors`), the event trace and the quiz's
freshly cached statistics. -/
structure SaveOut where
  rows : List QRow
  saved : ℕ
  errors : List String
  trace : List Ev
  cached : Stats

/-- `save_results`: process all entries, then call
`quiz.update_statistics()` once. -/
def saveResults (students : List Student) (rows : List QRow) (q : ℕ)
    (entries : List Entry) (nid now : ℕ) : SaveOut :=
  let fin := entries.foldl (stepEntry students q now) ⟨rows, 0, [], nid, []⟩
  { rows := fin.rows
    saved := fin.saved
    errors := fin.errors
    trace := fin.trace ++ [Ev.recompute]
    cached := updateStatistics (scoresForQuiz fin.rows q) }

/-! ### `QuizDetailSerializer.get_results` (`gradely/serializers.py`) -/

/-- The `id` field of a merged result entry: either a real
`QuizResult` primary key or the synthesized string `f"temp-{student.id}"`. -/
inductive RowId where
  | real (resultId : ℕ)
  | temp (studentId : ℕ)
deriving DecidableEq, Repr

/-- One element of the merged per-student view. -/
structure REntry where
  id : RowId
  student_name : String
  student_id : String
  score_obtained : Option ℚ
  date_taken : Option ℕ
deriving DecidableEq, Repr

/-- `{res.student.id: res for res in obj.results.all()}`: a Python dict
build, later bindings overwriting earlier ones. -/
def resultDict (results : List QRow) : List (ℕ × QRow) :=
  results.foldl
    (fun m r =>
      if m.any (fun p => p.1 = r.student) then
        m.map (fun p => if p.1 = r.student then (p.1, r) else p)
      else m ++ [(r.student, r)])
    []

/-- `get_results`: walk the roster sorted by name and emit the real
result or a placeholder per student.  `results` stands for
`obj.results.all()` (this quiz's rows). -/
def getResults (roster : List Student) (results : List QRow) : List REntry :=
  let dict := resultDict results
  let sortedRoster :=
    List.insertionSort (fun a b => strLe a.name b.name = true) roster
  sortedRoster.map fun s =>
    match (dict.find? (fun p => p.1 = s.id)).map (·.2) with
    | some r =>
      { id := RowId.real r.id
        student_name := s.name
        student_id := s.student_id
        score_obtained := some r.score_obtained
        date_taken := some r.date_taken }
    | none =>
      { id := RowId.temp s.id
        student_name := s.name
        student_id := s.student_id
        score_obtained := none
        date_taken := none }

/-! ### `QuizDetailSerializer.get_item_analysis` (`gradely/serializers.py`) -/

/-- One record of the emitted analysis. -/
structure ItemRec where
  question : String
  correct_count : ℕ
  total_respondents : ℕ
  percentage : ℚ
deriving DecidableEq, Repr

/-- Processing one `(q_num, details)` item: initialize the counter for
an unseen key, then bump it when `details.get('correct') is True`. -/
def itemStep (m : List (String × ℕ)) (it : String × Ans) : List (String × ℕ) :=
  let m' := if m.any (fun p => p.1 = it.1) then m else m ++ [(it.1, 0)]
  if it.2.correct = some true then
    m'.map (fun p => if p.1 = it.1 then (p.1, p.2 + 1) else p)
  else m'

/-- The `correct_counts` dictionary after the double loop over results
and their answers (`if not answers: continue` skips empty maps). -/
def collectCounts (results : List QRow) : List (String × ℕ) :=
  results.foldl
    (fun m r =>
      if r.student_answers.isEmpty then m
      else r.student_answers.foldl itemStep m)
    []

/-- The Python sort key `int(x) if x.isdigit() else x`: an integer for
digit strings, the string itself otherwise. -/
def pyKey (x : String) : ℕ ⊕ String :=
  if pyIsDigit x then Sum.inl (digitsVal x.data) else Sum.inr x

/-- Python `<` between two sort keys: comparing an `int` with a `str`
raises `TypeError`, modelled as `Except.error`. -/
def keyLt : ℕ ⊕ String → ℕ ⊕ String → Except Unit Bool
  | Sum.inl a, Sum.inl b => Except.ok (decide (a < b))
  | Sum.inr a, Sum.inr b => Except.ok (strLt a b)
  | _, _ => Except.error ()

/-- Stable insertion into an already-sorted list, propagating the
`TypeError` of a cross-type comparison (any mixed key set makes
CPython's sort compare an `int` with a `str`). -/
def insSorted (x : String) : List String → Except Unit (List String)
  | [] => Except.ok [x]
  | y :: ys => do
    let b ← keyLt (pyKey x) (pyKey y)
    if b then
      Except.ok (x :: y :: ys)
    else do
      let r ← insSorted x ys
      Except.ok (y :: r)

/-- `sorted(correct_counts.keys(), key=lambda x: int(x) if x.isdigit() else x)`. -/
def sortKeys : List String → Except Unit (List String)
  | [] => Except.ok []
  | x :: xs => do
    let s ← sortKeys xs
    insSorted x s

/-- Value lookup in the `correct_counts` association list. -/
def lookCount (m : List (String × ℕ)) (q : String) : ℕ :=
  ((m.find? (fun p => p.1 = q)).map (·.2)).getD 0

/-- `get_item_analysis`: empty on zero respondents, otherwise one record
per question key in sorted order; the `TypeError` of a mixed key set
propagates. -/
def getItemAnalysis (results : List QRow) : Except Unit (List ItemRec) :=
  let total := results.length
  if total = 0 then Except.ok []
  else
    let m := collectCounts results
    match sortKeys (m.map (·.1)) with
    | Except.error e => Except.error e
    | Except.ok ks =>
      Except.ok (ks.map fun qn =>
        let c := lookCount m qn
        { question := qn
          correct_count := c
          total_respondents := total
          percentage := pyRound1 ((c : ℚ) / (total : ℚ) * 100) })

/-! ### Spec-facing derived notions

Definitions phrased after the specification's wording, used to state
the claims against the code-level functions above. -/

/-- An entry that `save_results` actually persists: a present, non-empty
`student_id` carried by some registered `Student`. -/
def isValidEntry (students : List Student) (e : Entry) : Bool :=
  match e.student_id with
  | none => false
  | some sid => !(sid = "") && students.any (fun s => s.student_id = sid)

/-- The per-entry error list the specification describes: one message,
in order, for each entry whose (present, non-empty) `student_id`
matches no registered student. -/
def claimedErrors (students : List Student) (entries : List Entry) : List String :=
  entries.filterMap fun e =>
    match e.student_id with
    | none => none
    | some sid =>
      if sid = "" then none
      else if students.any (fun s => s.student_id = sid) then none
      else some (errMsg sid)

/-- The `(quiz, student)` key of a result row. -/
def rowKey (r : QRow) : ℕ × ℕ := (r.quiz, r.student)

/-- The spec invariant: at most one `QuizResult` per `(quiz, student)`. -/
def KeyUnique (rows : List QRow) : Prop := (rows.map rowKey).Nodup

/-- The last entry of a batch carrying a given external student code. -/
def lastFor (entries : List Entry) (sid : String) : Option Entry :=
  (entries.filter (fun e => e.student_id = some sid)).getLast?

/-- Every question identifier appearing in any result's answer map. -/
def answerKeys (results : List QRow) : List String :=
  results.flatMap (fun r => r.student_answers.map Prod.fst)

/-- Whether an answer map marks question `qn` with `correct == True`. -/
def marksIn (items : List (String × Ans)) (qn : String) : Bool :=
  match items.find? (fun p => p.1 = qn) with
  | some p => p.2.correct = some true
  | none => false

/-- Whether a result marks question `qn` correct. -/
def marksCorrect (r : QRow) (qn : String) : Bool := marksIn r.student_answers qn

/-- Number of results marking question `qn` with `correct == True`. -/
def countCorrect (results : List QRow) (qn : String) : ℕ :=
  (results.filter (fun r => marksCorrect r qn)).length

/-- The merged-view element `get_results` is specified to emit for one
enrolled student, given the quiz's result rows. -/
def expectedEntry (results : List QRow) (s : Student) : REntry :=
  match results.find? (fun r => r.student = s.id) with
  | some r =>
    { id := RowId.real r.id
      student_name := s.name
      student_id := s.student_id
      score_obtained := some r.score_obtained
      date_taken := some r.date_taken }
  | none =>
    { id := RowId.temp s.id
      student_name := s.name
      student_id := s.student_id
      score_obtained := none
      date_taken := none }

/-! ## Lemmas and claim theorems -/

/-! ### Order lemmas for the byte-wise string comparison -/

theorem strLtL_irrefl (a : List Char) : strLtL a a = false := by
  induction a with
  | nil => rfl
  | cons c cs ih => simp [strLtL, ih]

theorem strLtL_trichotomy (a b : List Char) :
    strLtL a b = true ∨ a = b ∨ strLtL b a = true := by
  induction a generalizing b with
  | nil => cases b <;> simp [strLtL]
  | cons c cs ih =>
    cases b with
    | nil => simp [strLtL]
    | cons d ds =>
      by_cases h1 : c.toNat < d.toNat
      · exact Or.inl (by simp [strLtL, h1])
      · by_cases h2 : d.toNat < c.toNat
        · exact Or.inr (Or.inr (by simp [strLtL, h2]))
        · have hn : c.toNat = d.toNat := by omega
          have hcd : c = d := by
            rw [← Char.ofNat_toNat c, ← Char.ofNat_toNat d, hn]
          rcases ih ds with h | h | h
          · exact Or.inl (by subst hcd; simp [strLtL, h])
          · exact Or.inr (Or.inl (by rw [hcd, h]))
          · exact Or.inr (Or.inr (by subst hcd; simp [strLtL, h]))

theorem strLtL_trans {a b c : List Char} (hab : strLtL a b = true)
    (hbc : strLtL b c = true) : strLtL a c = true := by
  induction a generalizing b c with
  | nil =>
    cases b with
    | nil => simp [strLtL] at hab
    | cons d ds => cases c with
      | nil => simp [strLtL] at hbc
      | cons e es => simp [strLtL]
  | cons x xs ih =>
    cases b with
    | nil => simp [strLtL] at hab
    | cons d ds =>
      cases c with
      | nil => simp [strLtL] at hbc
      | cons e es =>
        by_cases h1 : x.toNat < d.toNat
        · by_cases h2 : d.toNat < e.toNat
          · have h3 : x.toNat < e.toNat := by omega
            simp [strLtL, h3]
          · have h2' : ¬ e.toNat < d.toNat := by
              intro h
              simp [strLtL, h2, h] at hbc
            have h3 : x.toNat < e.toNat := by omega
            simp [strLtL, h3]
        · have h1' : ¬ d.toNat < x.toNat := by
            intro h
            simp [strLtL, h1, h] at hab
          have htail : strLtL xs ds = true := by
            simpa [strLtL, h1, h1'] using hab
          by_cases h2 : d.toNat < e.toNat
          · have h3 : x.toNat < e.toNat := by omega
            simp [strLtL, h3]
          · have h2' : ¬ e.toNat < d.toNat := by
              intro h
              simp [strLtL, h2, h] at hbc
            have htail2 : strLtL ds es = true := by
              simpa [strLtL, h2, h2'] using hbc
            have h3 : ¬ x.toNat < e.toNat := by omega
            have h3' : ¬ e.toNat < x.toNat := by omega
            simp [strLtL, h3, h3', ih htail htail2]

theorem strLtL_asymm {a b : List Char} (h : strLtL a b = true) :
    strLtL b a = false := by
  cases hba : strLtL b a with
  | false => rfl
  | true =>
    have := strLtL_trans h hba
    rw [strLtL_irrefl] at this
    exact this.symm

theorem strLe_total (a b : String) : strLe a b = true ∨ strLe b a = true := by
  unfold strLe strLt
  rcases strLtL_trichotomy a.data b.data with h | h | h
  · left; simp [strLtL_asymm h]
  · left; rw [h]; simp [strLtL_irrefl]
  · right; simp [strLtL_asymm h]

theorem strLe_trans {a b c : String} (hab : strLe a b = true)
    (hbc : strLe b c = true) : strLe a c = true := by
  unfold strLe strLt at *
  simp only [Bool.not_eq_true'] at hab hbc
  simp only [Bool.not_eq_true']
  cases hca : strLtL c.data a.data with
  | false => rfl
  | true =>
    exfalso
    rcases strLtL_trichotomy b.data c.data with h | h | h
    · have := strLtL_trans h hca
      rw [hab] at this
      exact Bool.false_ne_true this
    · rw [← h] at hca
      rw [hab] at hca
      exact Bool.false_ne_true hca
    · rw [hbc] at h
      exact Bool.false_ne_true h

/-! ### Fold lemmas for sums, maxima and minima -/

theorem foldl_add_eq_sum (l : List ℚ) (a : ℚ) :
    l.foldl (· + ·) a = a + l.sum := by
  induction l generalizing a with
  | nil => simp
  | cons x xs ih => simp [List.foldl_cons, ih, List.sum_cons]; ring

theorem foldl_max_mem {α : Type} [LinearOrder α] (l : List α) (a : α) :
    l.foldl max a ∈ a :: l := by
  induction l generalizing a with
  | nil => simp
  | cons x xs ih =>
    simp only [List.foldl_cons]
    rcases List.mem_cons.mp (ih (max a x)) with h | h
    · rcases max_choice a x with hm | hm <;> rw [hm] at h <;> simp [hm, h]
    · simp [List.mem_cons, h]

theorem le_foldl_max {α : Type} [LinearOrder α] (l : List α) (a : α) :
    ∀ x ∈ a :: l, x ≤ l.foldl max a := by
  induction l generalizing a with
  | nil =>
    intro x hx
    simp at hx
    simp [hx]
  | cons y ys ih =>
    intro x hx
    simp only [List.foldl_cons]
    rcases List.mem_cons.mp hx with rfl | hx
    · exact le_trans (le_max_left x y) (ih (max x y) _ (List.mem_cons_self _ _))
    · rcases List.mem_cons.mp hx with rfl | hx
      · exact le_trans (le_max_right a x) (ih (max a x) _ (List.mem_cons_self _ _))
      · exact ih (max a y) x (List.mem_cons_of_mem _ hx)

theorem foldl_min_mem {α : Type} [LinearOrder α] (l : List α) (a : α) :
    l.foldl min a ∈ a :: l := by
  induction l generalizing a with
  | nil => simp
  | cons x xs ih =>
    simp only [List.foldl_cons]
    rcases List.mem_cons.mp (ih (min a x)) with h | h
    · rcases min_choice a x with hm | hm <;> rw [hm] at h <;> simp [hm, h]
    · simp [List.mem_cons, h]

theorem foldl_min_le {α : Type} [LinearOrder α] (l : List α) (a : α) :
    ∀ x ∈ a :: l, l.foldl min a ≤ x := by
  induction l generalizing a with
  | nil =>
    intro x hx
    simp at hx
    simp [hx]
  | cons y ys ih =>
    intro x hx
    simp only [List.foldl_cons]
    rcases List.mem_cons.mp hx with rfl | hx
    · exact le_trans (ih (min x y) _ (List.mem_cons_self _ _)) (min_le_left x y)
    · rcases List.mem_cons.mp hx with rfl | hx
      · exact le_trans (ih (min a x) _ (List.mem_cons_self _ _)) (min_le_right a x)
      · exact ih (min a y) x (List.mem_cons_of_mem _ hx)

/-- C3: for every quiz, `update_statistics` yields
`{mean=0, min=0, max=0, attendee_count=0}` on an empty result set, and
otherwise `attendee_count` is the number of results, `max_score` and
`min_score` are the greatest and least `score_obtained`, and
`mean_score` is the sum of scores divided by the count. -/
theorem update_statistics_spec (scores : List ℚ) :
    (scores = [] → updateStatistics scores = ⟨0, 0, 0, 0⟩) ∧
    (scores ≠ [] →
      (updateStatistics scores).attendees_count = scores.length ∧
      (updateStatistics scores).max_score ∈ scores ∧
      (∀ s ∈ scores, s ≤ (updateStatistics scores).max_score) ∧
      (updateStatistics scores).min_score ∈ scores ∧
      (∀ s ∈ scores, (updateStatistics scores).min_score ≤ s) ∧
      (updateStatistics scores).mean_score = scores.sum / scores.length) := by
  constructor
  · rintro rfl
    rfl
  · intro hne
    match scores with
    | [] => exact absurd rfl hne
    | x :: xs =>
      refine ⟨rfl, ?_, ?_, ?_, ?_, ?_⟩
      · exact foldl_max_mem xs x
      · exact le_foldl_max xs x
      · exact foldl_min_mem xs x
      · exact foldl_min_le xs x
      · show ((x :: xs).foldl (· + ·) 0) / ((x :: xs).length : ℚ) = _
        rw [foldl_add_eq_sum, zero_add]

/-- Witness for C3 at the concrete score list `[3, 5]`. -/
theorem update_statistics_spec_witness :
    (updateStatistics [(3 : ℚ), 5]).attendees_count = 2 ∧
    (updateStatistics [(3 : ℚ), 5]).mean_score = ([(3 : ℚ), 5].sum) / 2 := by
  have h := (update_statistics_spec [(3 : ℚ), 5]).2 (by simp)
  exact ⟨h.1, by simpa using h.2.2.2.2.2⟩

/-! ### Trace lemmas for `save_results` -/

theorem stepEntry_trace (students : List Student) (q now : ℕ)
    (st : SaveState) (e : Entry) :
    ∀ ev ∈ (stepEntry students q now st e).trace,
      ev ∈ st.trace ∨ ∃ k, ev = Ev.upsert k := by
  intro ev hev
  obtain ⟨sidOpt, sc, ans⟩ := e
  cases sidOpt with
  | none => exact Or.inl hev
  | some sid =>
    by_cases hs : sid = ""
    · unfold stepEntry at hev
      simp only [hs, if_pos rfl] at hev
      exact Or.inl hev
    · unfold stepEntry at hev
      simp only [if_neg hs] at hev
      cases hfind : students.find? (fun s => s.student_id = sid) with
      | none =>
        rw [hfind] at hev
        exact Or.inl hev
      | some s =>
        rw [hfind] at hev
        simp only at hev
        rcases List.mem_append.mp hev with h | h
        · exact Or.inl h
        · simp at h
          exact Or.inr ⟨s.id, h⟩

theorem saveLoop_trace (students : List Student) (q now : ℕ)
    (entries : List Entry) :
    ∀ st : SaveState,
      ∀ ev ∈ (entries.foldl (stepEntry students q now) st).trace,
        ev ∈ st.trace ∨ ∃ k, ev = Ev.upsert k := by
  induction entries with
  | nil => intro st ev hev; exact Or.inl hev
  | cons e rest ih =>
    intro st ev hev
    rcases ih (stepEntry students q now st e) ev hev with h | h
    · exact stepEntry_trace students q now st e ev h
    · exact Or.inr h

/-- C7: after every `save_results` call, the quiz's cached statistics
equal the recomputation of `update_statistics` over the quiz's
then-current result rows, and `update_statistics` runs exactly once per
batch, as the final step after all entries. -/
theorem save_results_stats_once (students : List Student) (rows : List QRow)
    (q : ℕ) (entries : List Entry) (nid now : ℕ) :
    (saveResults students rows q entries nid now).trace.count Ev.recompute = 1 ∧
    (saveResults students rows q entries nid now).trace.getLast?
      = some Ev.recompute ∧
    (saveResults students rows q entries nid now).cached
      = updateStatistics
          (scoresForQuiz (saveResults students rows q entries nid now).rows q) := by
  refine ⟨?_, ?_, rfl⟩
  · show ((entries.foldl (stepEntry students q now)
      ⟨rows, 0, [], nid, []⟩).trace ++ [Ev.recompute]).count Ev.recompute = 1
    rw [List.count_append]
    have hz : (entries.foldl (stepEntry students q now)
        ⟨rows, 0, [], nid, []⟩).trace.count Ev.recompute = 0 := by
      rw [List.count_eq_zero]
      intro hmem
      rcases saveLoop_trace students q now entries ⟨rows, 0, [], nid, []⟩
        Ev.recompute hmem with h | ⟨k, hk⟩
      · simp at h
      · exact Ev.noConfusion hk
    rw [hz]
    rfl
  · show ((entries.foldl (stepEntry students q now)
      ⟨rows, 0, [], nid, []⟩).trace ++ [Ev.recompute]).getLast? = some Ev.recompute
    simp

/-! ### Equation lemmas for one `save_results` loop iteration -/

theorem any_eq_isSome_find (p : α → Bool) (l : List α) :
    l.any p = (l.find? p).isSome := by
  induction l with
  | nil => rfl
  | cons x xs ih => cases hx : p x <;> simp [List.any_cons, List.find?_cons, hx, ih]

theorem stepEntry_absent {students : List Student} {q now : ℕ}
    {st : SaveState} {e : Entry} (h : e.student_id = none) :
    stepEntry students q now st e = st := by
  unfold stepEntry
  rw [h]

theorem stepEntry_empty {students : List Student} {q now : ℕ}
    {st : SaveState} {e : Entry} (h : e.student_id = some "") :
    stepEntry students q now st e = st := by
  unfold stepEntry
  rw [h]
  simp

theorem stepEntry_notFound {students : List Student} {q now : ℕ}
    {st : SaveState} {e : Entry} {sid : String} (h : e.student_id = some sid)
    (hs : sid ≠ "")
    (hf : students.find? (fun s => s.student_id = sid) = none) :
    stepEntry students q now st e = { st with errors := st.errors ++ [errMsg sid] } := by
  unfold stepEntry
  rw [h]
  simp only [if_neg hs, hf]

theorem stepEntry_found {students : List Student} {q now : ℕ}
    {st : SaveState} {e : Entry} {sid : String} {s : Student}
    (h : e.student_id = some sid) (hs : sid ≠ "")
    (hf : students.find? (fun t => t.student_id = sid) = some s) :
    stepEntry students q now st e =
      { rows := (updateOrCreate st.rows q s.id e.score e.student_answers st.nid now).1
        saved := st.saved + 1
        errors := st.errors
        nid := if (updateOrCreate st.rows q s.id e.score e.student_answers st.nid now).2
               then st.nid + 1 else st.nid
        trace := st.trace ++ [Ev.upsert s.id] } := by
  unfold stepEntry
  rw [h]
  simp only [if_neg hs, hf]

/-! ### Accumulation lemmas for errors and the saved counter -/

theorem saveLoop_errors (students : List Student) (q now : ℕ)
    (entries : List Entry) :
    ∀ st : SaveState,
      (entries.foldl (stepEntry students q now) st).errors
        = st.errors ++ claimedErrors students entries := by
  induction entries with
  | nil => intro st; simp [claimedErrors]
  | cons e rest ih =>
    intro st
    rw [List.foldl_cons, ih]
    cases hsid : e.student_id with
    | none =>
      rw [stepEntry_absent hsid]
      simp [claimedErrors, List.filterMap_cons, hsid]
    | some sid =>
      by_cases hs : sid = ""
      · subst hs
        rw [stepEntry_empty hsid]
        simp [claimedErrors, List.filterMap_cons, hsid]
      · cases hf : students.find? (fun t => t.student_id = sid) with
        | none =>
          rw [stepEntry_notFound hsid hs hf]
          have hnex : ¬ ∃ x ∈ students, x.student_id = sid := by
            rw [List.find?_eq_none] at hf
            rintro ⟨x, hx, hsx⟩
            exact (hf x hx) (by simp [hsx])
          simp [claimedErrors, List.filterMap_cons, hsid, hs, hnex]
        | some s =>
          rw [stepEntry_found hsid hs hf]
          have hex : ∃ x ∈ students, x.student_id = sid := by
            refine ⟨s, List.mem_of_find?_eq_some hf, ?_⟩
            simpa using List.find?_some hf
          simp [claimedErrors, List.filterMap_cons, hsid, hs, hex]

theorem saveLoop_saved (students : List Student) (q now : ℕ)
    (entries : List Entry) :
    ∀ st : SaveState,
      (entries.foldl (stepEntry students q now) st).saved
        = st.saved + (entries.filter (isValidEntry students)).length := by
  induction entries with
  | nil => intro st; simp
  | cons e rest ih =>
    intro st
    rw [List.foldl_cons, ih]
    cases hsid : e.student_id with
    | none =>
      rw [stepEntry_absent hsid]
      simp [List.filter_cons, isValidEntry, hsid]
    | some sid =>
      by_cases hs : sid = ""
      · subst hs
        rw [stepEntry_empty hsid]
        simp [List.filter_cons, isValidEntry, hsid]
      · cases hf : students.find? (fun t => t.student_id = sid) with
        | none =>
          rw [stepEntry_notFound hsid hs hf]
          have hnex : ¬ ∃ x ∈ students, x.student_id = sid := by
            rw [List.find?_eq_none] at hf
            rintro ⟨x, hx, hsx⟩
            exact (hf x hx) (by simp [hsx])
          simp [List.filter_cons, isValidEntry, hsid, hs, hnex]
        | some s =>
          rw [stepEntry_found hsid hs hf]
          have hex : ∃ x ∈ students, x.student_id = sid := by
            refine ⟨s, List.mem_of_find?_eq_some hf, ?_⟩
            simpa using List.find?_some hf
          simp [List.filter_cons, isValidEntry, hsid, hs, hex]
          omega

/-! ### Key-presence lemmas for the result table -/

theorem uoc_key_mem (rows : List QRow) (q st : ℕ) (sc : ℚ)
    (ans : List (String × Ans)) (nid now : ℕ) :
    ∃ r ∈ (updateOrCreate rows q st sc ans nid now).1,
      r.quiz = q ∧ r.student = st := by
  unfold updateOrCreate
  by_cases hany : rows.any (fun r => r.quiz = q && r.student = st) = true
  · rw [if_pos hany]
    rcases List.any_eq_true.mp hany with ⟨r0, hr0, hp⟩
    simp only [Bool.and_eq_true, decide_eq_true_eq] at hp
    refine ⟨{ r0 with score_obtained := sc, student_answers := ans }, ?_, hp.1, hp.2⟩
    rw [List.mem_map]
    refine ⟨r0, hr0, ?_⟩
    simp [hp.1, hp.2]
  · rw [if_neg hany]
    exact ⟨⟨nid, q, st, sc, ans, now⟩, by simp, rfl, rfl⟩

theorem uoc_key_preserved {rows : List QRow} {q' st' : ℕ}
    (h : ∃ r ∈ rows, r.quiz = q' ∧ r.student = st')
    (q st : ℕ) (sc : ℚ) (ans : List (String × Ans)) (nid now : ℕ) :
    ∃ r ∈ (updateOrCreate rows q st sc ans nid now).1,
      r.quiz = q' ∧ r.student = st' := by
  rcases h with ⟨r0, hr0, hq, hs⟩
  unfold updateOrCreate
  by_cases hany : rows.any (fun r => r.quiz = q && r.student = st) = true
  · rw [if_pos hany]
    by_cases hkey : (r0.quiz = q && r0.student = st) = true
    · refine ⟨{ r0 with score_obtained := sc, student_answers := ans },
        ?_, hq, hs⟩
      rw [List.mem_map]
      refine ⟨r0, hr0, ?_⟩
      simp only [Bool.and_eq_true, decide_eq_true_eq] at hkey
      simp [hkey.1, hkey.2]
    · refine ⟨r0, ?_, hq, hs⟩
      rw [List.mem_map]
      refine ⟨r0, hr0, ?_⟩
      simp only [Bool.and_eq_true, decide_eq_true_eq, not_and] at hkey
      by_cases h1 : r0.quiz = q
      · simp [h1, hkey h1]
      · simp [h1]
  · rw [if_neg hany]
    exact ⟨r0, List.mem_append_left _ hr0, hq, hs⟩

theorem stepEntry_key_preserved {students : List Student} {q now : ℕ}
    {st : SaveState} {e : Entry} {q' st' : ℕ}
    (h : ∃ r ∈ st.rows, r.quiz = q' ∧ r.student = st') :
    ∃ r ∈ (stepEntry students q now st e).rows, r.quiz = q' ∧ r.student = st' := by
  cases hsid : e.student_id with
  | none => rw [stepEntry_absent hsid]; exact h
  | some sid =>
    by_cases hs : sid = ""
    · subst hs
      rw [stepEntry_empty hsid]
      exact h
    · cases hf : students.find? (fun t => t.student_id = sid) with
      | none =>
        rw [stepEntry_notFound hsid hs hf]
        exact h
      | some s =>
        rw [stepEntry_found hsid hs hf]
        exact uoc_key_preserved h q s.id e.score e.student_answers st.nid now

theorem saveLoop_key_preserved (students : List Student) (q now : ℕ)
    (entries : List Entry) :
    ∀ (st : SaveState) (q' st' : ℕ),
      (∃ r ∈ st.rows, r.quiz = q' ∧ r.student = st') →
      ∃ r ∈ (entries.foldl (stepEntry students q now) st).rows,
        r.quiz = q' ∧ r.student = st' := by
  induction entries with
  | nil => intro st q' st' h; exact h
  | cons e rest ih =>
    intro st q' st' h
    exact ih _ q' st' (stepEntry_key_preserved h)

/-- C5: `save_results` skips entries without a `student_id`, records the
error string `"Student ID '<x>' not registered in the system."` for each
entry with an unregistered code and keeps going, upserts every entry
with a registered student, and responds with the count of saved entries
and the ordered per-entry error list (partial success). -/
theorem save_results_partial_success (students : List Student)
    (rows : List QRow) (q : ℕ) (entries : List Entry) (nid now : ℕ) :
    (saveResults students rows q entries nid now).errors
      = claimedErrors students entries ∧
    (saveResults students rows q entries nid now).saved
      = (entries.filter (isValidEntry students)).length ∧
    (∀ e ∈ entries, ∀ sid s, e.student_id = some sid → sid ≠ "" →
      students.find? (fun t => t.student_id = sid) = some s →
      ∃ r ∈ (saveResults students rows q entries nid now).rows,
        r.quiz = q ∧ r.student = s.id) ∧
    (∀ (pre post : List Entry) (e : Entry), e.student_id = none →
      saveResults students rows q (pre ++ e :: post) nid now
        = saveResults students rows q (pre ++ post) nid now) := by
  refine ⟨?_, ?_, ?_, ?_⟩
  · show (entries.foldl (stepEntry students q now) ⟨rows, 0, [], nid, []⟩).errors = _
    rw [saveLoop_errors]
    rfl
  · show (entries.foldl (stepEntry students q now) ⟨rows, 0, [], nid, []⟩).saved = _
    rw [saveLoop_saved]
    simp
  · intro e he sid s hsid hs hf
    rcases List.append_of_mem he with ⟨pre, post, rfl⟩
    show ∃ r ∈ ((pre ++ e :: post).foldl (stepEntry students q now)
      ⟨rows, 0, [], nid, []⟩).rows, r.quiz = q ∧ r.student = s.id
    rw [List.foldl_append, List.foldl_cons]
    apply saveLoop_key_preserved
    rw [stepEntry_found hsid hs hf]
    exact uoc_key_mem _ q s.id e.score e.student_answers _ now
  · intro pre post e hsid
    unfold saveResults
    rw [List.foldl_append, List.foldl_append, List.foldl_cons,
      stepEntry_absent hsid]

/-- Witness for C5: one registered entry, one unregistered entry, one
entry with no `student_id`. -/
theorem save_results_partial_success_witness :
    (saveResults [⟨1, "S1", "A"⟩] [] 1
        [⟨some "S1", 5, []⟩, ⟨some "S2", 3, []⟩, ⟨none, 4, []⟩] 100 9).errors
      = ["Student ID 'S2' not registered in the system."] ∧
    (saveResults [⟨1, "S1", "A"⟩] [] 1
        [⟨some "S1", 5, []⟩, ⟨some "S2", 3, []⟩, ⟨none, 4, []⟩] 100 9).saved = 1 ∧
    ∃ r ∈ (saveResults [⟨1, "S1", "A"⟩] [] 1
        [⟨some "S1", 5, []⟩, ⟨some "S2", 3, []⟩, ⟨none, 4, []⟩] 100 9).rows,
      r.quiz = 1 ∧ r.student = 1 := by
  have h := save_results_partial_success [⟨1, "S1", "A"⟩] [] 1
    [⟨some "S1", 5, []⟩, ⟨some "S2", 3, []⟩, ⟨none, 4, []⟩] 100 9
  refine ⟨?_, ?_, ?_⟩
  · rw [h.1]
    rfl
  · rw [h.2.1]
    rfl
  · exact h.2.2.1 ⟨some "S1", 5, []⟩ (by simp) "S1" ⟨1, "S1", "A"⟩ rfl
      (by simp) (by rfl)

/-! ### Uniqueness of the `(quiz, student)` key -/

theorem map_rowKey_uoc_update (rows : List QRow) (q st : ℕ) (sc : ℚ)
    (ans : List (String × Ans)) :
    (rows.map (fun r =>
      if r.quiz = q && r.student = st then
        { r with score_obtained := sc, student_answers := ans }
      else r)).map rowKey = rows.map rowKey := by
  induction rows with
  | nil => rfl
  | cons r rs ih =>
    simp only [List.map_cons, ih]
    congr 1
    split <;> rfl

theorem map_id_uoc_update (rows : List QRow) (q st : ℕ) (sc : ℚ)
    (ans : List (String × Ans)) :
    (rows.map (fun r =>
      if r.quiz = q && r.student = st then
        { r with score_obtained := sc, student_answers := ans }
      else r)).map (fun r => r.id) = rows.map (fun r => r.id) := by
  induction rows with
  | nil => rfl
  | cons r rs ih =>
    simp only [List.map_cons, ih]
    congr 1
    split <;> rfl

theorem uoc_keyUnique {rows : List QRow} (h : KeyUnique rows)
    (q st : ℕ) (sc : ℚ) (ans : List (String × Ans)) (nid now : ℕ) :
    KeyUnique (updateOrCreate rows q st sc ans nid now).1 := by
  unfold updateOrCreate
  by_cases hany : rows.any (fun r => r.quiz = q && r.student = st) = true
  · rw [if_pos hany]
    unfold KeyUnique at h ⊢
    rw [map_rowKey_uoc_update]
    exact h
  · rw [if_neg hany]
    unfold KeyUnique at *
    rw [List.map_append, List.nodup_append]
    refine ⟨h, by simp, ?_⟩
    intro k hk
    simp only [List.map_cons, List.map_nil, List.mem_singleton]
    intro hkey
    rcases List.mem_map.mp hk with ⟨r, hr, hrk⟩
    apply hany
    rw [List.any_eq_true]
    refine ⟨r, hr, ?_⟩
    have : r.quiz = q ∧ r.student = st := by
      have := hrk.trans hkey
      unfold rowKey at this
      exact ⟨congrArg Prod.fst this, congrArg Prod.snd this⟩
    simp [this.1, this.2]

theorem stepEntry_keyUnique {students : List Student} {q now : ℕ}
    {st : SaveState} {e : Entry} (h : KeyUnique st.rows) :
    KeyUnique (stepEntry students q now st e).rows := by
  cases hsid : e.student_id with
  | none => rw [stepEntry_absent hsid]; exact h
  | some sid =>
    by_cases hs : sid = ""
    · subst hs
      rw [stepEntry_empty hsid]
      exact h
    · cases hf : students.find? (fun t => t.student_id = sid) with
      | none =>
        rw [stepEntry_notFound hsid hs hf]
        exact h
      | some s =>
        rw [stepEntry_found hsid hs hf]
        exact uoc_keyUnique h q s.id e.score e.student_answers st.nid now

theorem saveLoop_keyUnique (students : List Student) (q now : ℕ)
    (entries : List Entry) :
    ∀ st : SaveState, KeyUnique st.rows →
      KeyUnique (entries.foldl (stepEntry students q now) st).rows := by
  induction entries with
  | nil => intro st h; exact h
  | cons e rest ih =>
    intro st h
    exact ih _ (stepEntry_keyUnique h)

theorem keyUnique_filter_len {rows : List QRow} (q st : ℕ)
    (h : KeyUnique rows) :
    (rows.filter (fun r => r.quiz = q && r.student = st)).length ≤ 1 := by
  induction rows with
  | nil => simp
  | cons r rs ih =>
    rw [KeyUnique, List.map_cons, List.nodup_cons] at h
    by_cases hp : (r.quiz = q && r.student = st) = true
    · rw [List.filter_cons, if_pos hp]
      have hnil : rs.filter (fun x => x.quiz = q && x.student = st) = [] := by
        rw [List.filter_eq_nil_iff]
        intro x hx hpx
        apply h.1
        rw [List.mem_map]
        refine ⟨x, hx, ?_⟩
        simp only [Bool.and_eq_true, decide_eq_true_eq] at hp hpx
        unfold rowKey
        rw [hpx.1, hpx.2, hp.1, hp.2]
      rw [hnil]
      simp
    · rw [List.filter_cons, if_neg hp]
      exact ih h.2

theorem keyUnique_filter_len_one {rows : List QRow} (q st : ℕ)
    (h : KeyUnique rows)
    (hex : ∃ r ∈ rows, r.quiz = q ∧ r.student = st) :
    (rows.filter (fun r => r.quiz = q && r.student = st)).length = 1 := by
  have hle := keyUnique_filter_len q st h
  rcases hex with ⟨r, hr, hq, hs⟩
  have hmem : r ∈ rows.filter (fun x => x.quiz = q && x.student = st) := by
    rw [List.mem_filter]
    exact ⟨hr, by simp [hq, hs]⟩
  have hpos : 0 < (rows.filter (fun x => x.quiz = q && x.student = st)).length :=
    List.length_pos.mpr (List.ne_nil_of_mem hmem)
  omega

theorem uoc_values {rows : List QRow} {q st : ℕ} {sc : ℚ}
    {ans : List (String × Ans)} {nid now : ℕ} :
    ∀ r ∈ (updateOrCreate rows q st sc ans nid now).1,
      r.quiz = q → r.student = st →
      r.score_obtained = sc ∧ r.student_answers = ans := by
  intro r hr hq hs
  unfold updateOrCreate at hr
  by_cases hany : rows.any (fun x => x.quiz = q && x.student = st) = true
  · rw [if_pos hany] at hr
    rcases List.mem_map.mp hr with ⟨r0, hr0, hfr⟩
    by_cases hk : (r0.quiz = q && r0.student = st) = true
    · rw [if_pos hk] at hfr
      rw [← hfr]
      exact ⟨rfl, rfl⟩
    · rw [if_neg hk] at hfr
      exfalso
      apply hk
      rw [hfr]
      simp [hq, hs]
  · rw [if_neg hany] at hr
    rcases List.mem_append.mp hr with h0 | h0
    · exfalso
      apply hany
      rw [List.any_eq_true]
      exact ⟨r, h0, by simp [hq, hs]⟩
    · simp only [List.mem_singleton] at h0
      rw [h0]
      exact ⟨rfl, rfl⟩

theorem uoc_update_length {rows : List QRow} {q st : ℕ} (sc : ℚ)
    (ans : List (String × Ans)) (nid now : ℕ)
    (hany : rows.any (fun r => r.quiz = q && r.student = st) = true) :
    (updateOrCreate rows q st sc ans nid now).1.length = rows.length := by
  unfold updateOrCreate
  rw [if_pos hany]
  exact List.length_map _ _

theorem uoc_update_ids {rows : List QRow} {q st : ℕ} (sc : ℚ)
    (ans : List (String × Ans)) (nid now : ℕ)
    (hany : rows.any (fun r => r.quiz = q && r.student = st) = true) :
    (updateOrCreate rows q st sc ans nid now).1.map (fun r => r.id)
      = rows.map (fun r => r.id) := by
  unfold updateOrCreate
  rw [if_pos hany]
  exact map_id_uoc_update rows q st sc ans

/-- C4: at most one `QuizResult` exists per `(quiz, student)` pair;
`save_results` preserves this, and a second save for the same pair
overwrites `score_obtained`/`student_answers` on the existing row
(same row count, same row ids) instead of adding a duplicate, leaving
exactly one row with the latest values. -/
theorem quiz_result_pair_unique :
    (∀ (students : List Student) (rows : List QRow) (q : ℕ)
       (entries : List Entry) (nid now : ℕ), KeyUnique rows →
       KeyUnique (saveResults students rows q entries nid now).rows) ∧
    (∀ (rows : List QRow) (q st : ℕ) (sc1 sc2 : ℚ)
       (a1 a2 : List (String × Ans)) (n1 t1 n2 t2 : ℕ), KeyUnique rows →
       KeyUnique (updateOrCreate
         (updateOrCreate rows q st sc1 a1 n1 t1).1 q st sc2 a2 n2 t2).1 ∧
       (updateOrCreate
         (updateOrCreate rows q st sc1 a1 n1 t1).1 q st sc2 a2 n2 t2).1.length
         = (updateOrCreate rows q st sc1 a1 n1 t1).1.length ∧
       (updateOrCreate
         (updateOrCreate rows q st sc1 a1 n1 t1).1 q st sc2 a2 n2 t2).1.map
           (fun r => r.id)
         = (updateOrCreate rows q st sc1 a1 n1 t1).1.map (fun r => r.id) ∧
       ((updateOrCreate
         (updateOrCreate rows q st sc1 a1 n1 t1).1 q st sc2 a2 n2 t2).1.filter
           (fun r => r.quiz = q && r.student = st)).length = 1 ∧
       ∀ r ∈ (updateOrCreate
         (updateOrCreate rows q st sc1 a1 n1 t1).1 q st sc2 a2 n2 t2).1,
         r.quiz = q → r.student = st →
         r.score_obtained = sc2 ∧ r.student_answers = a2) := by
  constructor
  · intro students rows q entries nid now h
    exact saveLoop_keyUnique students q now entries ⟨rows, 0, [], nid, []⟩ h
  · intro rows q st sc1 sc2 a1 a2 n1 t1 n2 t2 h
    have h1 : KeyUnique (updateOrCreate rows q st sc1 a1 n1 t1).1 :=
      uoc_keyUnique h q st sc1 a1 n1 t1
    have hex1 := uoc_key_mem rows q st sc1 a1 n1 t1
    have hany1 : (updateOrCreate rows q st sc1 a1 n1 t1).1.any
        (fun r => r.quiz = q && r.student = st) = true := by
      rw [List.any_eq_true]
      rcases hex1 with ⟨r, hr, hq, hs⟩
      exact ⟨r, hr, by simp [hq, hs]⟩
    have h2 : KeyUnique (updateOrCreate
        (updateOrCreate rows q st sc1 a1 n1 t1).1 q st sc2 a2 n2 t2).1 :=
      uoc_keyUnique h1 q st sc2 a2 n2 t2
    refine ⟨h2, uoc_update_length sc2 a2 n2 t2 hany1,
      uoc_update_ids sc2 a2 n2 t2 hany1, ?_, uoc_values⟩
    exact keyUnique_filter_len_one q st h2
      (uoc_key_mem (updateOrCreate rows q st sc1 a1 n1 t1).1 q st sc2 a2 n2 t2)

/-- Witness for C4: two saves for the same pair on an initially empty
table leave exactly one row carrying the second save's values. -/
theorem quiz_result_pair_unique_witness :
    ((updateOrCreate (updateOrCreate [] 1 7 5 [] 10 3).1 1 7 9 [] 11 4).1.filter
      (fun r => r.quiz = 1 && r.student = 7)).length = 1 ∧
    ∀ r ∈ (updateOrCreate (updateOrCreate [] 1 7 5 [] 10 3).1 1 7 9 [] 11 4).1,
      r.quiz = 1 → r.student = 7 →
      r.score_obtained = 9 ∧ r.student_answers = [] := by
  have h := quiz_result_pair_unique.2 [] 1 7 5 9 [] [] 10 3 11 4 (by simp [KeyUnique])
  exact ⟨h.2.2.2.1, h.2.2.2.2⟩

/-! ### Last-write-wins for duplicated entries -/

theorem lastFilter_decomp (p : Entry → Bool) (l : List Entry) (e : Entry)
    (h : (l.filter p).getLast? = some e) :
    ∃ pre post, l = pre ++ e :: post ∧ p e = true ∧
      ∀ x ∈ post, p x = false := by
  induction l with
  | nil => simp at h
  | cons x xs ih =>
    rw [List.filter_cons] at h
    by_cases hx : p x = true
    · rw [if_pos hx] at h
      cases hfx : xs.filter p with
      | nil =>
        rw [hfx] at h
        simp at h
        refine ⟨[], xs, by simp [h], by rw [← h]; exact hx, ?_⟩
        intro y hy
        have := List.filter_eq_nil_iff.mp hfx y hy
        exact Bool.eq_false_iff.mpr this
      | cons z zs =>
        rw [hfx] at h
        rw [List.getLast?_cons_cons] at h
        rw [← hfx] at h
        rcases ih h with ⟨pre, post, hsplit, hpe, hpost⟩
        exact ⟨x :: pre, post, by simp [hsplit], hpe, hpost⟩
    · rw [if_neg hx] at h
      rcases ih h with ⟨pre, post, hsplit, hpe, hpost⟩
      exact ⟨x :: pre, post, by simp [hsplit], hpe, hpost⟩

theorem filter_map_update_other (rows : List QRow) (q st2 st' : ℕ) (sc : ℚ)
    (ans : List (String × Ans)) (hne : st' ≠ st2) :
    (rows.map (fun r =>
      if r.quiz = q && r.student = st' then
        { r with score_obtained := sc, student_answers := ans }
      else r)).filter (fun r => r.quiz = q && r.student = st2)
    = rows.filter (fun r => r.quiz = q && r.student = st2) := by
  induction rows with
  | nil => rfl
  | cons r rs ih =>
    simp only [List.map_cons, List.filter_cons]
    by_cases h2 : (r.quiz = q && r.student = st2) = true
    · have h2' : r.quiz = q ∧ r.student = st2 := by simpa using h2
      have hk : ¬ ((r.quiz = q && r.student = st') = true) := by
        simp only [Bool.and_eq_true, decide_eq_true_eq]
        rintro ⟨_, hst⟩
        have hst2 := h2'.2
        rw [hst] at hst2
        exact hne hst2
      rw [if_neg hk, if_pos h2, if_pos h2, ih]
    · by_cases hk : (r.quiz = q && r.student = st') = true
      · rw [if_pos hk]
        have h2u : ¬ (({ r with score_obtained := sc, student_answers := ans } : QRow).quiz = q
            && ({ r with score_obtained := sc, student_answers := ans } : QRow).student = st2) = true := by
          simpa using h2
        rw [if_neg h2u, if_neg h2]
        exact ih
      · rw [if_neg hk, if_neg h2, if_neg h2]
        exact ih

theorem uoc_filter_other (rows : List QRow) (q st' st2 : ℕ) (sc : ℚ)
    (ans : List (String × Ans)) (nid now : ℕ) (hne : st' ≠ st2) :
    (updateOrCreate rows q st' sc ans nid now).1.filter
      (fun r => r.quiz = q && r.student = st2)
    = rows.filter (fun r => r.quiz = q && r.student = st2) := by
  unfold updateOrCreate
  by_cases hany : rows.any (fun r => r.quiz = q && r.student = st') = true
  · rw [if_pos hany]
    exact filter_map_update_other rows q st2 st' sc ans hne
  · rw [if_neg hany]
    rw [List.filter_append]
    have : ([(⟨nid, q, st', sc, ans, now⟩ : QRow)].filter
        (fun r => r.quiz = q && r.student = st2)) = [] := by
      simp [hne]
    rw [this, List.append_nil]

theorem stepEntry_filter_other {students : List Student} {q now : ℕ}
    {st : SaveState} {e : Entry} {sid : String} {s : Student}
    (hf : students.find? (fun t => t.student_id = sid) = some s)
    (hpk : (students.map (fun t => t.id)).Nodup)
    (hne : e.student_id ≠ some sid) :
    (stepEntry students q now st e).rows.filter
      (fun r => r.quiz = q && r.student = s.id)
    = st.rows.filter (fun r => r.quiz = q && r.student = s.id) := by
  cases hsid : e.student_id with
  | none => rw [stepEntry_absent hsid]
  | some sid2 =>
    have hsid2 : sid2 ≠ sid := by
      intro hc
      exact hne (by rw [hsid, hc])
    by_cases hs2 : sid2 = ""
    · subst hs2
      rw [stepEntry_empty hsid]
    · cases hf2 : students.find? (fun t => t.student_id = sid2) with
      | none => rw [stepEntry_notFound hsid hs2 hf2]
      | some s2 =>
        rw [stepEntry_found hsid hs2 hf2]
        apply uoc_filter_other
        intro hc
        have hm : s ∈ students := List.mem_of_find?_eq_some hf
        have hm2 : s2 ∈ students := List.mem_of_find?_eq_some hf2
        have hv : s.student_id = sid := by simpa using List.find?_some hf
        have hv2 : s2.student_id = sid2 := by simpa using List.find?_some hf2
        have : s2 = s := List.inj_on_of_nodup_map hpk hm2 hm hc
        rw [this, hv] at hv2
        exact hsid2 hv2.symm

theorem saveLoop_filter_other (students : List Student) (q now : ℕ)
    {sid : String} {s : Student}
    (hf : students.find? (fun t => t.student_id = sid) = some s)
    (hpk : (students.map (fun t => t.id)).Nodup) :
    ∀ post : List Entry, (∀ x ∈ post, x.student_id ≠ some sid) →
    ∀ st : SaveState,
      (post.foldl (stepEntry students q now) st).rows.filter
        (fun r => r.quiz = q && r.student = s.id)
      = st.rows.filter (fun r => r.quiz = q && r.student = s.id) := by
  intro post
  induction post with
  | nil => intro _ st; rfl
  | cons e rest ih =>
    intro hpost st
    rw [List.foldl_cons]
    rw [ih (fun x hx => hpost x (List.mem_cons_of_mem _ hx))]
    exact stepEntry_filter_other hf hpk (hpost e (List.mem_cons_self _ _))

/-- C10: when the same registered `student_id` occurs `k > 1` times in a
batch, `saved` counts every occurrence, yet exactly one `QuizResult` row
for that `(quiz, student)` pair remains, holding the values of the last
occurrence — so `saved` can exceed the number of rows persisted. -/
theorem save_results_duplicate_sid (students : List Student)
    (rows : List QRow) (q : ℕ) (entries : List Entry) (nid now : ℕ)
    (hkey : KeyUnique rows)
    (hpk : (students.map (fun t => t.id)).Nodup) :
    (saveResults students rows q entries nid now).saved
      = (entries.filter (isValidEntry students)).length ∧
    (∀ (sid : String) (s : Student) (e : Entry),
      students.find? (fun t => t.student_id = sid) = some s → sid ≠ "" →
      lastFor entries sid = some e →
      ((saveResults students rows q entries nid now).rows.filter
        (fun r => r.quiz = q && r.student = s.id)).length = 1 ∧
      ∀ r ∈ (saveResults students rows q entries nid now).rows,
        r.quiz = q → r.student = s.id →
        r.score_obtained = e.score ∧ r.student_answers = e.student_answers) := by
  constructor
  · show (entries.foldl (stepEntry students q now) ⟨rows, 0, [], nid, []⟩).saved = _
    rw [saveLoop_saved]
    simp
  · intro sid s e hf hs hlast
    rcases lastFilter_decomp _ entries e hlast with ⟨pre, post, rfl, hpe, hpost⟩
    have hesid : e.student_id = some sid := by simpa using hpe
    have hpost' : ∀ x ∈ post, x.student_id ≠ some sid := by
      intro x hx hc
      have := hpost x hx
      rw [hc] at this
      simp at this
    have hloopstate :
        ((pre ++ e :: post).foldl (stepEntry students q now)
          ⟨rows, 0, [], nid, []⟩)
        = post.foldl (stepEntry students q now)
            (stepEntry students q now
              (pre.foldl (stepEntry students q now) ⟨rows, 0, [], nid, []⟩) e) := by
      rw [List.foldl_append, List.foldl_cons]
    have hku1 : KeyUnique (pre.foldl (stepEntry students q now)
        ⟨rows, 0, [], nid, []⟩).rows :=
      saveLoop_keyUnique students q now pre ⟨rows, 0, [], nid, []⟩ hkey
    set st1 := pre.foldl (stepEntry students q now) ⟨rows, 0, [], nid, []⟩ with hst1
    have hstep : stepEntry students q now st1 e =
        { rows := (updateOrCreate st1.rows q s.id e.score e.student_answers st1.nid now).1
          saved := st1.saved + 1
          errors := st1.errors
          nid := if (updateOrCreate st1.rows q s.id e.score e.student_answers st1.nid now).2
                 then st1.nid + 1 else st1.nid
          trace := st1.trace ++ [Ev.upsert s.id] } :=
      stepEntry_found hesid hs hf
    have hku2 : KeyUnique (updateOrCreate st1.rows q s.id e.score
        e.student_answers st1.nid now).1 :=
      uoc_keyUnique hku1 q s.id e.score e.student_answers st1.nid now
    have hfilt2 : (((updateOrCreate st1.rows q s.id e.score
        e.student_answers st1.nid now).1).filter
        (fun r => r.quiz = q && r.student = s.id)).length = 1 :=
      keyUnique_filter_len_one q s.id hku2
        (uoc_key_mem st1.rows q s.id e.score e.student_answers st1.nid now)
    have hpres := saveLoop_filter_other students q now hf hpk post hpost'
      (stepEntry students q now st1 e)
    constructor
    · show (((pre ++ e :: post).foldl (stepEntry students q now)
        ⟨rows, 0, [], nid, []⟩).rows.filter
          (fun r => r.quiz = q && r.student = s.id)).length = 1
      rw [hloopstate, hpres, hstep]
      exact hfilt2
    · intro r hr hq hsid2
      have hrfinal : r ∈ ((pre ++ e :: post).foldl (stepEntry students q now)
          ⟨rows, 0, [], nid, []⟩).rows := hr
      have hrfilter : r ∈ ((pre ++ e :: post).foldl (stepEntry students q now)
          ⟨rows, 0, [], nid, []⟩).rows.filter
            (fun x => x.quiz = q && x.student = s.id) := by
        rw [List.mem_filter]
        exact ⟨hrfinal, by simp [hq, hsid2]⟩
      rw [hloopstate, hpres, hstep] at hrfilter
      have hr2 : r ∈ (updateOrCreate st1.rows q s.id e.score
          e.student_answers st1.nid now).1 := (List.mem_filter.mp hrfilter).1
      exact uoc_values r hr2 hq hsid2

/-- Witness for C10: the same student saved twice in one batch — `saved`
is 2 while a single row with the second score remains. -/
theorem save_results_duplicate_sid_witness :
    (saveResults [⟨1, "S1", "A"⟩] [] 1
      [⟨some "S1", 5, []⟩, ⟨some "S1", 7, []⟩] 100 9).saved = 2 ∧
    ((saveResults [⟨1, "S1", "A"⟩] [] 1
      [⟨some "S1", 5, []⟩, ⟨some "S1", 7, []⟩] 100 9).rows.filter
        (fun r => r.quiz = 1 && r.student = 1)).length = 1 ∧
    ∀ r ∈ (saveResults [⟨1, "S1", "A"⟩] [] 1
      [⟨some "S1", 5, []⟩, ⟨some "S1", 7, []⟩] 100 9).rows,
      r.quiz = 1 → r.student = 1 → r.score_obtained = 7 := by
  have h := save_results_duplicate_sid [⟨1, "S1", "A"⟩] [] 1
    [⟨some "S1", 5, []⟩, ⟨some "S1", 7, []⟩] 100 9
    (by simp [KeyUnique]) (by simp)
  have h2 := h.2 "S1" ⟨1, "S1", "A"⟩ ⟨some "S1", 7, []⟩ (by rfl) (by simp)
    (by rfl)
  refine ⟨?_, h2.1, fun r hr hq hs => (h2.2 r hr hq hs).1⟩
  rw [h.1]
  rfl

/-! ### The merged per-student view -/

theorem resultDict_go (results : List QRow) :
    ∀ m : List (ℕ × QRow),
      (results.map (fun r => r.student)).Nodup →
      (∀ r ∈ results, m.any (fun p => p.1 = r.student) = false) →
      results.foldl
        (fun m r =>
          if m.any (fun p => p.1 = r.student) then
            m.map (fun p => if p.1 = r.student then (p.1, r) else p)
          else m ++ [(r.student, r)])
        m
      = m ++ results.map (fun r => (r.student, r)) := by
  induction results with
  | nil => intro m _ _; simp
  | cons r rs ih =>
    intro m hnd h2
    rw [List.map_cons, List.nodup_cons] at hnd
    rw [List.foldl_cons]
    have hany := h2 r (List.mem_cons_self _ _)
    rw [if_neg (by rw [hany]; exact Bool.false_ne_true)]
    rw [ih (m ++ [(r.student, r)]) hnd.2 ?_]
    · simp
    · intro r' hr'
      rw [List.any_append]
      have h1 : m.any (fun p => p.1 = r'.student) = false :=
        h2 r' (List.mem_cons_of_mem _ hr')
      have hne : r.student ≠ r'.student := by
        intro hc
        apply hnd.1
        rw [List.mem_map]
        exact ⟨r', hr', hc.symm⟩
      rw [h1]
      simp [hne]

theorem resultDict_eq (results : List QRow)
    (h : (results.map (fun r => r.student)).Nodup) :
    resultDict results = results.map (fun r => (r.student, r)) := by
  unfold resultDict
  rw [resultDict_go results [] h (fun r _ => rfl)]
  rfl

theorem expectedEntry_student_id (results : List QRow) (s : Student) :
    (expectedEntry results s).student_id = s.student_id := by
  unfold expectedEntry
  cases results.find? (fun r => r.student = s.id) <;> rfl

theorem expectedEntry_student_name (results : List QRow) (s : Student) :
    (expectedEntry results s).student_name = s.name := by
  unfold expectedEntry
  cases results.find? (fun r => r.student = s.id) <;> rfl

theorem getResults_eq_map (roster : List Student) (results : List QRow)
    (hres : (results.map (fun r => r.student)).Nodup) :
    getResults roster results
      = (List.insertionSort (fun a b => strLe a.name b.name = true) roster).map
          (expectedEntry results) := by
  unfold getResults
  rw [resultDict_eq results hres]
  apply List.map_congr_left
  intro s _
  rw [List.find?_map]
  have hc : results.find? ((fun p : ℕ × QRow => decide (p.1 = s.id))
        ∘ fun r => (r.student, r))
      = results.find? (fun r => r.student = s.id) := rfl
  rw [hc]
  unfold expectedEntry
  cases results.find? (fun r => r.student = s.id) <;> rfl

theorem filter_key_unique {α β : Type} [DecidableEq β] (g : α → β)
    (l : List α) (hnd : (l.map g).Nodup) (a : α) (ha : a ∈ l) :
    (l.filter (fun x => g x = g a)).length = 1 := by
  induction l with
  | nil => simp at ha
  | cons x xs ih =>
    rw [List.map_cons, List.nodup_cons] at hnd
    rcases List.mem_cons.mp ha with heq | ha'
    · subst heq
      rw [List.filter_cons, if_pos (by simp)]
      have : xs.filter (fun y => g y = g a) = [] := by
        rw [List.filter_eq_nil_iff]
        intro y hy hgy
        apply hnd.1
        rw [List.mem_map]
        simp only [decide_eq_true_eq] at hgy
        exact ⟨y, hy, hgy⟩
      rw [this]
      rfl
    · have hgx : ¬ (g x = g a) := by
        intro hc
        apply hnd.1
        rw [List.mem_map]
        exact ⟨a, ha', hc.symm⟩
      rw [List.filter_cons, if_neg (by simpa using hgx)]
      exact ih hnd.2 ha'

/-- C6: `get_results` emits exactly one entry per enrolled student,
ordered by student name — the real result record when a `QuizResult`
exists for that student, otherwise a placeholder with id
`temp-<student.id>` and null score and date; a roster of 3 students with
1 result yields exactly 3 entries, 2 of them null-score placeholders. -/
theorem get_results_merged_view (roster : List Student) (results : List QRow)
    (hsid : (roster.map (fun s => s.student_id)).Nodup)
    (hres : (results.map (fun r => r.student)).Nodup) :
    (getResults roster results).length = roster.length ∧
    List.Pairwise (fun a b => strLe a.student_name b.student_name = true)
      (getResults roster results) ∧
    (∀ st ∈ roster,
      ((getResults roster results).filter
        (fun en => en.student_id = st.student_id)).length = 1 ∧
      ∀ en ∈ getResults roster results,
        en.student_id = st.student_id → en = expectedEntry results st) ∧
    getResults [⟨1, "S1", "Bea"⟩, ⟨2, "S2", "Al"⟩, ⟨3, "S3", "Cy"⟩]
        [⟨10, 1, 2, 7, [], 42⟩]
      = [⟨RowId.real 10, "Al", "S2", some 7, some 42⟩,
         ⟨RowId.temp 1, "Bea", "S1", none, none⟩,
         ⟨RowId.temp 3, "Cy", "S3", none, none⟩] := by
  have hmap := getResults_eq_map roster results hres
  refine ⟨?_, ?_, ?_, by rfl⟩
  · rw [hmap, List.length_map, List.length_insertionSort]
  · rw [hmap]
    have hsorted : List.Pairwise (fun a b : Student => strLe a.name b.name = true)
        (List.insertionSort (fun a b => strLe a.name b.name = true) roster) := by
      haveI htot : IsTotal Student (fun a b : Student => strLe a.name b.name = true) :=
        ⟨fun a b => strLe_total a.name b.name⟩
      haveI htrans : IsTrans Student (fun a b : Student => strLe a.name b.name = true) :=
        ⟨fun _ _ _ => strLe_trans⟩
      exact List.sorted_insertionSort _ roster
    apply List.Pairwise.map
    · intro a b hab
      rw [expectedEntry_student_name, expectedEntry_student_name]
      exact hab
    · exact hsorted
  · intro st hst
    have hperm : List.Perm
        (List.insertionSort (fun a b => strLe a.name b.name = true) roster)
        roster := List.perm_insertionSort _ roster
    constructor
    · rw [hmap, List.filter_map]
      rw [List.length_map]
      have hcongr : (List.insertionSort (fun a b => strLe a.name b.name = true)
            roster).filter
          ((fun en => en.student_id = st.student_id) ∘ expectedEntry results)
        = (List.insertionSort (fun a b => strLe a.name b.name = true)
            roster).filter (fun s => s.student_id = st.student_id) := by
        apply List.filter_congr
        intro s _
        simp [Function.comp, expectedEntry_student_id]
      rw [hcongr]
      have hpf := hperm.filter (fun s => s.student_id = st.student_id)
      rw [hpf.length_eq]
      exact filter_key_unique (fun s => s.student_id) roster hsid st hst
    · intro en hen hensid
      rw [hmap] at hen
      rcases List.mem_map.mp hen with ⟨s, hsmem, rfl⟩
      have hsroster : s ∈ roster := hperm.mem_iff.mp hsmem
      have : s.student_id = st.student_id := by
        rw [← expectedEntry_student_id results s]
        exact hensid
      have hseq : s = st := List.inj_on_of_nodup_map hsid hsroster hst this
      rw [hseq]

/-- Witness for C6 at a concrete roster and result set. -/
theorem get_results_merged_view_witness :
    (getResults [⟨1, "S1", "Bea"⟩, ⟨2, "S2", "Al"⟩, ⟨3, "S3", "Cy"⟩]
      [⟨10, 1, 2, 7, [], 42⟩]).length = 3 ∧
    ((getResults [⟨1, "S1", "Bea"⟩, ⟨2, "S2", "Al"⟩, ⟨3, "S3", "Cy"⟩]
      [⟨10, 1, 2, 7, [], 42⟩]).filter
        (fun en => en.student_id = "S3")).length = 1 := by
  have h := get_results_merged_view
    [⟨1, "S1", "Bea"⟩, ⟨2, "S2", "Al"⟩, ⟨3, "S3", "Cy"⟩]
    [⟨10, 1, 2, 7, [], 42⟩] (by simp) (by simp)
  refine ⟨h.1, ?_⟩
  have h3 := (h.2.2.1 ⟨3, "S3", "Cy"⟩ (by simp)).1
  exact h3

/-! ### The `correct_counts` dictionary -/

theorem lookCount_append_zero (m : List (String × ℕ)) (k qn : String) :
    lookCount (m ++ [(k, 0)]) qn = lookCount m qn := by
  unfold lookCount
  induction m with
  | nil =>
    by_cases h : k = qn
    · simp [List.find?, h]
    · simp [List.find?, h]
  | cons x xs ih =>
    by_cases hx : x.1 = qn
    · rw [List.cons_append,
        List.find?_cons_of_pos _ (by simp [hx]),
        List.find?_cons_of_pos _ (by simp [hx])]
    · rw [List.cons_append,
        List.find?_cons_of_neg _ (by simp [hx]),
        List.find?_cons_of_neg _ (by simp [hx])]
      exact ih

theorem lookCount_bump_other {m : List (String × ℕ)} {k qn : String}
    (h : k ≠ qn) :
    lookCount (m.map (fun p => if p.1 = k then (p.1, p.2 + 1) else p)) qn
      = lookCount m qn := by
  induction m with
  | nil => rfl
  | cons x xs ih =>
    have hfst : (if x.1 = k then (x.1, x.2 + 1) else x).1 = x.1 := by
      split <;> rfl
    by_cases hx : x.1 = qn
    · have hxk : ¬ x.1 = k := by
        rw [hx]
        exact fun hc => h hc.symm
      unfold lookCount
      rw [List.map_cons,
        List.find?_cons_of_pos _ (by rw [hfst]; simp [hx]),
        List.find?_cons_of_pos _ (by simp [hx])]
      rw [if_neg hxk]
    · unfold lookCount at ih ⊢
      rw [List.map_cons,
        List.find?_cons_of_neg _ (by rw [hfst]; simp [hx]),
        List.find?_cons_of_neg _ (by simp [hx])]
      exact ih

theorem lookCount_bump_hit {m : List (String × ℕ)} {qn : String}
    (h : m.any (fun p => p.1 = qn) = true) :
    lookCount (m.map (fun p => if p.1 = qn then (p.1, p.2 + 1) else p)) qn
      = lookCount m qn + 1 := by
  induction m with
  | nil => simp at h
  | cons x xs ih =>
    have hfst : (if x.1 = qn then (x.1, x.2 + 1) else x).1 = x.1 := by
      split <;> rfl
    by_cases hx : x.1 = qn
    · unfold lookCount
      rw [List.map_cons,
        List.find?_cons_of_pos _ (by rw [hfst]; simp [hx]),
        List.find?_cons_of_pos _ (by simp [hx])]
      simp [if_pos hx]
    · rw [List.any_cons] at h
      have htail : xs.any (fun p => p.1 = qn) = true := by
        rcases Bool.or_eq_true_iff.mp h with hh | hh
        · exact absurd (by simpa using hh) hx
        · exact hh
      unfold lookCount at ih ⊢
      rw [List.map_cons,
        List.find?_cons_of_neg _ (by rw [hfst]; simp [hx]),
        List.find?_cons_of_neg _ (by simp [hx])]
      exact ih htail

theorem lookCount_addKey (m : List (String × ℕ)) (k qn : String) :
    lookCount (if m.any (fun p => p.1 = k) then m else m ++ [(k, 0)]) qn
      = lookCount m qn := by
  by_cases h : m.any (fun p => p.1 = k) = true
  · rw [if_pos h]
  · rw [if_neg h]
    exact lookCount_append_zero m k qn

theorem keyIn_addKey_self (m : List (String × ℕ)) (k : String) :
    (if m.any (fun p => p.1 = k) then m else m ++ [(k, 0)]).any
      (fun p => p.1 = k) = true := by
  by_cases h : m.any (fun p => p.1 = k) = true
  · rw [if_pos h]
    exact h
  · rw [if_neg h, List.any_append]
    simp

theorem lookCount_itemStep_self (m : List (String × ℕ)) (k : String) (d : Ans) :
    lookCount (itemStep m (k, d)) k
      = lookCount m k + (if d.correct = some true then 1 else 0) := by
  unfold itemStep
  dsimp only
  by_cases hc : d.correct = some true
  · rw [if_pos hc, if_pos hc,
      lookCount_bump_hit (keyIn_addKey_self m k), lookCount_addKey]
  · rw [if_neg hc, if_neg hc, lookCount_addKey]
    omega

theorem lookCount_itemStep_other {m : List (String × ℕ)}
    {it : String × Ans} {qn : String} (h : it.1 ≠ qn) :
    lookCount (itemStep m it) qn = lookCount m qn := by
  unfold itemStep
  by_cases hc : it.2.correct = some true
  · rw [if_pos hc, lookCount_bump_other h, lookCount_addKey]
  · rw [if_neg hc, lookCount_addKey]

theorem lookCount_items_nokey (items : List (String × Ans)) (qn : String) :
    ∀ m, qn ∉ items.map Prod.fst →
      lookCount (items.foldl itemStep m) qn = lookCount m qn := by
  induction items with
  | nil => intro m _; rfl
  | cons it rest ih =>
    intro m hq
    rw [List.map_cons] at hq
    rw [List.foldl_cons,
      ih _ (fun hc => hq (List.mem_cons_of_mem _ hc)),
      lookCount_itemStep_other (fun hc => hq (by rw [hc]; exact List.mem_cons_self _ _))]

theorem lookCount_items (items : List (String × Ans)) (qn : String)
    (hnd : (items.map Prod.fst).Nodup) :
    ∀ m, lookCount (items.foldl itemStep m) qn
      = lookCount m qn + (if marksIn items qn = true then 1 else 0) := by
  induction items with
  | nil =>
    intro m
    simp [marksIn]
  | cons it rest ih =>
    obtain ⟨k, d⟩ := it
    rw [List.map_cons, List.nodup_cons] at hnd
    intro m
    rw [List.foldl_cons]
    by_cases hk : k = qn
    · subst hk
      rw [lookCount_items_nokey rest k _ hnd.1,
        lookCount_itemStep_self]
      have hmarks : marksIn ((k, d) :: rest) k = decide (d.correct = some true) := by
        unfold marksIn
        rw [List.find?_cons_of_pos _ (by simp)]
      rw [hmarks]
      by_cases hc : d.correct = some true <;> simp [hc]
    · rw [ih hnd.2 _, lookCount_itemStep_other (by simpa using hk)]
      have hmarks : marksIn ((k, d) :: rest) qn = marksIn rest qn := by
        unfold marksIn
        rw [List.find?_cons_of_neg _ (by simpa using hk)]
      rw [hmarks]

/-! ### Key structure of the `correct_counts` dictionary -/

theorem keys_bump (m : List (String × ℕ)) (k : String) :
    (m.map (fun p => if p.1 = k then (p.1, p.2 + 1) else p)).map Prod.fst
      = m.map Prod.fst := by
  induction m with
  | nil => rfl
  | cons x xs ih =>
    simp only [List.map_cons, ih]
    congr 1
    split <;> rfl

theorem keys_itemStep (m : List (String × ℕ)) (it : String × Ans) :
    (itemStep m it).map Prod.fst
      = if m.any (fun p => p.1 = it.1) then m.map Prod.fst
        else m.map Prod.fst ++ [it.1] := by
  unfold itemStep
  by_cases hin : m.any (fun p => p.1 = it.1) = true
  · rw [if_pos hin, if_pos hin]
    by_cases hc : it.2.correct = some true
    · rw [if_pos hc, keys_bump]
    · rw [if_neg hc]
  · rw [if_neg hin, if_neg hin]
    by_cases hc : it.2.correct = some true
    · rw [if_pos hc, keys_bump, List.map_append]
      rfl
    · rw [if_neg hc, List.map_append]
      rfl

theorem keys_itemStep_mem (m : List (String × ℕ)) (it : String × Ans)
    (qn : String) :
    qn ∈ (itemStep m it).map Prod.fst
      ↔ qn ∈ m.map Prod.fst ∨ qn = it.1 := by
  rw [keys_itemStep]
  by_cases hin : m.any (fun p => p.1 = it.1) = true
  · rw [if_pos hin]
    constructor
    · exact Or.inl
    · rintro (h | rfl)
      · exact h
      · rcases List.any_eq_true.mp hin with ⟨p, hp, hpk⟩
        rw [List.mem_map]
        exact ⟨p, hp, by simpa using hpk⟩
  · rw [if_neg hin, List.mem_append, List.mem_singleton]

theorem keys_itemStep_nodup (m : List (String × ℕ)) (it : String × Ans)
    (h : (m.map Prod.fst).Nodup) :
    ((itemStep m it).map Prod.fst).Nodup := by
  rw [keys_itemStep]
  by_cases hin : m.any (fun p => p.1 = it.1) = true
  · rw [if_pos hin]
    exact h
  · rw [if_neg hin, List.nodup_append]
    refine ⟨h, List.nodup_singleton _, ?_⟩
    intro k hk
    rw [List.mem_singleton]
    rintro rfl
    apply hin
    rcases List.mem_map.mp hk with ⟨p, hp, hpk⟩
    rw [List.any_eq_true]
    exact ⟨p, hp, by simp [hpk]⟩

theorem keys_items_mem (items : List (String × Ans)) (qn : String) :
    ∀ m, qn ∈ ((items.foldl itemStep m).map Prod.fst)
      ↔ qn ∈ m.map Prod.fst ∨ qn ∈ items.map Prod.fst := by
  induction items with
  | nil => intro m; simp
  | cons it rest ih =>
    intro m
    rw [List.foldl_cons, ih, keys_itemStep_mem, List.map_cons, List.mem_cons]
    tauto

theorem keys_items_nodup (items : List (String × Ans)) :
    ∀ m, (m.map Prod.fst).Nodup →
      ((items.foldl itemStep m).map Prod.fst).Nodup := by
  induction items with
  | nil => intro m h; exact h
  | cons it rest ih =>
    intro m h
    rw [List.foldl_cons]
    exact ih _ (keys_itemStep_nodup m it h)

/-! ### The whole `collectCounts` fold -/

theorem lookCount_collect_go (results : List QRow)
    (hkeys : ∀ r ∈ results, (r.student_answers.map Prod.fst).Nodup)
    (qn : String) :
    ∀ m, lookCount (results.foldl
        (fun m r =>
          if r.student_answers.isEmpty then m
          else r.student_answers.foldl itemStep m) m) qn
      = lookCount m qn + countCorrect results qn := by
  induction results with
  | nil => intro m; simp [countCorrect]
  | cons r rs ih =>
    intro m
    have hrs : ∀ x ∈ rs, (x.student_answers.map Prod.fst).Nodup :=
      fun x hx => hkeys x (List.mem_cons_of_mem _ hx)
    have hcc : countCorrect (r :: rs) qn
        = (if marksCorrect r qn = true then 1 else 0) + countCorrect rs qn := by
      unfold countCorrect
      rw [List.filter_cons]
      by_cases hm : marksCorrect r qn = true
      · simp [hm]
        omega
      · simp [hm]
    rw [List.foldl_cons, ih hrs]
    by_cases hemp : r.student_answers.isEmpty = true
    · rw [if_pos hemp]
      have : marksCorrect r qn = false := by
        unfold marksCorrect marksIn
        rw [List.isEmpty_iff.mp hemp]
        rfl
      rw [hcc, this]
      simp
    · rw [if_neg hemp,
        lookCount_items r.student_answers qn
          (hkeys r (List.mem_cons_self _ _)) m,
        hcc]
      unfold marksCorrect
      omega

theorem lookCount_collect (results : List QRow)
    (hkeys : ∀ r ∈ results, (r.student_answers.map Prod.fst).Nodup)
    (qn : String) :
    lookCount (collectCounts results) qn = countCorrect results qn := by
  unfold collectCounts
  rw [lookCount_collect_go results hkeys qn []]
  rw [show lookCount [] qn = 0 from rfl, Nat.zero_add]

theorem keys_collect_mem (results : List QRow) (qn : String) :
    qn ∈ (collectCounts results).map Prod.fst ↔ qn ∈ answerKeys results := by
  unfold collectCounts
  have main : ∀ m : List (String × ℕ), qn ∈ ((results.foldl
      (fun (m : List (String × ℕ)) (r : QRow) =>
        if r.student_answers.isEmpty then m
        else r.student_answers.foldl itemStep m) m).map Prod.fst)
      ↔ qn ∈ m.map Prod.fst ∨ qn ∈ answerKeys results := by
    induction results with
    | nil => intro m; simp [answerKeys]
    | cons r rs ih =>
      intro m
      rw [List.foldl_cons, ih]
      have hakeys : qn ∈ answerKeys (r :: rs)
          ↔ qn ∈ r.student_answers.map Prod.fst ∨ qn ∈ answerKeys rs := by
        unfold answerKeys
        rw [List.flatMap_cons, List.mem_append]
      rw [hakeys]
      by_cases hemp : r.student_answers.isEmpty = true
      · rw [if_pos hemp, List.isEmpty_iff.mp hemp]
        simp
      · rw [if_neg hemp, keys_items_mem]
        tauto
  rw [main []]
  simp

theorem keys_collect_nodup (results : List QRow) :
    ((collectCounts results).map Prod.fst).Nodup := by
  unfold collectCounts
  have main : ∀ m : List (String × ℕ), (m.map Prod.fst).Nodup →
      ((results.foldl
        (fun (m : List (String × ℕ)) (r : QRow) =>
          if r.student_answers.isEmpty then m
          else r.student_answers.foldl itemStep m) m).map Prod.fst).Nodup := by
    induction results with
    | nil => intro m h; exact h
    | cons r rs ih =>
      intro m h
      rw [List.foldl_cons]
      by_cases hemp : r.student_answers.isEmpty = true
      · rw [if_pos hemp]
        exact ih m h
      · rw [if_neg hemp]
        exact ih _ (keys_items_nodup r.student_answers m h)
  exact main [] (by simp)

/-! ### The Python sort of question keys -/

theorem except_bind_ok {ε α β : Type} (a : α) (f : α → Except ε β) :
    (Except.ok a >>= f) = f a := rfl

theorem except_bind_error {ε α β : Type} (e : ε) (f : α → Except ε β) :
    ((Except.error e : Except ε α) >>= f) = Except.error e := rfl

theorem insSorted_perm (x : String) :
    ∀ (ys l : List String), insSorted x ys = Except.ok l →
      List.Perm l (x :: ys) := by
  intro ys
  induction ys with
  | nil =>
    intro l h
    unfold insSorted at h
    rw [show ([x] : List String) = l from Except.ok.inj h]
  | cons y ys ih =>
    intro l h
    unfold insSorted at h
    cases hk : keyLt (pyKey x) (pyKey y) with
    | error e =>
      rw [hk, except_bind_error] at h
      exact absurd h (by simp)
    | ok b =>
      rw [hk, except_bind_ok] at h
      cases b with
      | true =>
        simp only [if_pos] at h
        rw [← Except.ok.inj h]
      | false =>
        simp only [Bool.false_eq_true, if_neg] at h
        cases hr : insSorted x ys with
        | error e =>
          rw [hr, except_bind_error] at h
          exact absurd h (by simp)
        | ok r =>
          rw [hr, except_bind_ok] at h
          rw [← Except.ok.inj h]
          exact (List.Perm.cons y (ih r hr)).trans (List.Perm.swap x y ys)

theorem sortKeys_perm :
    ∀ (xs l : List String), sortKeys xs = Except.ok l → List.Perm l xs := by
  intro xs
  induction xs with
  | nil =>
    intro l h
    unfold sortKeys at h
    rw [← Except.ok.inj h]
  | cons x xs ih =>
    intro l h
    unfold sortKeys at h
    cases hs : sortKeys xs with
    | error e =>
      rw [hs, except_bind_error] at h
      exact absurd h (by simp)
    | ok s =>
      rw [hs, except_bind_ok] at h
      exact (insSorted_perm x s l h).trans (List.Perm.cons x (ih s hs))

/-- C1 (amended): whenever `get_item_analysis` returns, it emits exactly
one record per question identifier appearing in any result's answer map,
with `total_respondents` equal to the total number of results — including
results whose answer map is empty — the same constant for every
question, `correct_count` the number of results marking the question
`correct == True` (a missing flag counts as not-correct), and
`percentage = round(correct_count / total_respondents * 100, 1)`; with
zero results the analysis list is empty. -/
theorem item_analysis_records (results : List QRow) (out : List ItemRec)
    (hkeys : ∀ r ∈ results, (r.student_answers.map Prod.fst).Nodup)
    (hok : getItemAnalysis results = Except.ok out) :
    (∀ qn, qn ∈ answerKeys results
      ↔ qn ∈ out.map (fun rec => rec.question)) ∧
    (out.map (fun rec => rec.question)).Nodup ∧
    (∀ rec ∈ out,
      rec.total_respondents = results.length ∧
      rec.correct_count = countCorrect results rec.question ∧
      rec.percentage = pyRound1 ((countCorrect results rec.question : ℚ)
        / (results.length : ℚ) * 100)) ∧
    getItemAnalysis [] = Except.ok [] := by
  by_cases hlen : results.length = 0
  · have hres : results = [] := List.length_eq_zero.mp hlen
    subst hres
    have hout : out = [] := by
      unfold getItemAnalysis at hok
      simpa using (Except.ok.inj hok).symm
    subst hout
    refine ⟨fun qn => ?_, by simp, by simp, rfl⟩
    simp [answerKeys]
  · simp only [getItemAnalysis, if_neg hlen] at hok
    cases hsort : sortKeys ((collectCounts results).map (fun p => p.1)) with
    | error e =>
      rw [hsort] at hok
      exact absurd hok (by simp)
    | ok ks =>
      rw [hsort] at hok
      have hout : out = ks.map (fun qn =>
          { question := qn
            correct_count := lookCount (collectCounts results) qn
            total_respondents := results.length
            percentage := pyRound1
              ((lookCount (collectCounts results) qn : ℚ)
                / (results.length : ℚ) * 100) }) :=
        (Except.ok.inj hok).symm
      subst hout
      have hq : (ks.map (fun qn =>
          ({ question := qn
             correct_count := lookCount (collectCounts results) qn
             total_respondents := results.length
             percentage := pyRound1
               ((lookCount (collectCounts results) qn : ℚ)
                 / (results.length : ℚ) * 100) } : ItemRec))).map
            (fun rec => rec.question) = ks := by
        rw [List.map_map]
        exact (List.map_congr_left (fun q _ => (rfl : _ = id q))).trans
          (List.map_id ks)
      have hperm := sortKeys_perm _ ks hsort
      refine ⟨fun qn => ?_, ?_, ?_, rfl⟩
      · rw [hq]
        rw [← keys_collect_mem results qn]
        have hmem : qn ∈ ks ↔ qn ∈ (collectCounts results).map (fun p => p.1) :=
          hperm.mem_iff
        rw [hmem]
      · rw [hq]
        exact hperm.nodup_iff.mpr (keys_collect_nodup results)
      · intro rec hrec
        rcases List.mem_map.mp hrec with ⟨q, hqks, rfl⟩
        refine ⟨rfl, ?_, ?_⟩
        · exact lookCount_collect results hkeys q
        · rw [lookCount_collect results hkeys q]

/-- Witness for C1 at the specification's worked example: results
`[{"1": correct}, {"1": incorrect, "2": correct}]`. -/
theorem item_analysis_records_witness :
    (("2" : String) ∈ answerKeys
        [⟨1, 1, 5, 7, [("1", ⟨some true⟩)], 0⟩,
         ⟨2, 1, 6, 8, [("1", ⟨some false⟩), ("2", ⟨some true⟩)], 0⟩]
      ↔ ("2" : String) ∈
        ([⟨"1", 1, 2, pyRound1 (((1 : ℕ) : ℚ) / ((2 : ℕ) : ℚ) * 100)⟩,
          ⟨"2", 1, 2, pyRound1 (((1 : ℕ) : ℚ) / ((2 : ℕ) : ℚ) * 100)⟩]
          : List ItemRec).map (fun rec => rec.question)) ∧
    ∀ rec ∈ ([⟨"1", 1, 2, pyRound1 (((1 : ℕ) : ℚ) / ((2 : ℕ) : ℚ) * 100)⟩,
              ⟨"2", 1, 2, pyRound1 (((1 : ℕ) : ℚ) / ((2 : ℕ) : ℚ) * 100)⟩]
             : List ItemRec),
      rec.total_respondents = 2 := by
  have h := item_analysis_records
    [⟨1, 1, 5, 7, [("1", ⟨some true⟩)], 0⟩,
     ⟨2, 1, 6, 8, [("1", ⟨some false⟩), ("2", ⟨some true⟩)], 0⟩]
    [⟨"1", 1, 2, pyRound1 (((1 : ℕ) : ℚ) / ((2 : ℕ) : ℚ) * 100)⟩,
     ⟨"2", 1, 2, pyRound1 (((1 : ℕ) : ℚ) / ((2 : ℕ) : ℚ) * 100)⟩]
    (by decide) (by rfl)
  refine ⟨h.1 "2", fun rec hrec => ?_⟩
  rw [(h.2.2.1 rec hrec).1]
  rfl

/-- C1, counterexample to the original wording: a result with an empty
answer map is counted in `total_respondents`, which therefore is the
number of results, not the number of students who submitted any
answers. -/
theorem item_analysis_counts_empty_answer_results :
    (getItemAnalysis
        [⟨1, 1, 5, 7, [], 0⟩, ⟨2, 1, 6, 8, [("1", ⟨some true⟩)], 0⟩]).map
      (fun out => out.map
        (fun rec => (rec.question, rec.correct_count, rec.total_respondents)))
      = Except.ok [("1", 1, 2)] ∧
    (([⟨1, 1, 5, 7, [], 0⟩, ⟨2, 1, 6, 8, [("1", ⟨some true⟩)], 0⟩]
        : List QRow).filter
      (fun r => !r.student_answers.isEmpty)).length = 1 ∧
    (2 : ℕ) ≠ 1 := by
  refine ⟨rfl, rfl, by decide⟩

/-- C8: the sort key `int(x) if x.isdigit() else x` makes the key sort
raise `TypeError` (modelled as `Except.error`) as soon as the key set
mixes an integer-parsing identifier with a non-parsing one, instead of
computing the claimed numeric-then-lexical order. -/
theorem item_analysis_mixed_keys_type_error :
    getItemAnalysis
        [⟨1, 1, 5, 7, [("1", ⟨some true⟩), ("a", ⟨some true⟩)], 0⟩]
      = Except.error () ∧
    pyIsDigit "1" = true ∧ pyIsDigit "a" = false :=
  ⟨rfl, rfl, rfl⟩

/-- C9: a CSV row with an empty name cell is not skipped — pandas reads
it as `NaN`, `str(...)` turns it into `"nan"`, and the importer creates
and enrolls a student literally named `"Nan"`; subsequent rows are still
processed. -/
theorem import_missing_name_not_skipped :
    importStudents [] "26" 1 [⟨none⟩, ⟨some "ben lee"⟩]
      = some ([⟨1, "26-000001", "Nan"⟩, ⟨2, "26-000002", "Ben Lee"⟩],
              [⟨1, "26-000001", "Nan"⟩, ⟨2, "26-000002", "Ben Lee"⟩]) ∧
    normName ⟨none⟩ = "Nan" :=
  ⟨rfl, rfl⟩

/-! ### Digit strings and the identifier format -/

theorem strLtL_append_same (c : List Char) (a b : List Char) :
    strLtL (c ++ a) (c ++ b) = strLtL a b := by
  induction c with
  | nil => rfl
  | cons x xs ih =>
    simp only [List.cons_append, strLtL, lt_irrefl, if_neg, if_false]
    simpa using ih

theorem digCh_toNat : ∀ d < 10, (digCh d).toNat = 48 + d := by decide

theorem digCh_isDigit : ∀ d < 10, (digCh d).isDigit = true := by decide

theorem digCh_ne_dash : ∀ d < 10, digCh d ≠ '-' := by decide

theorem div_pow_lt_ten {k n : ℕ} (hn : n < 10 ^ (k + 1)) : n / 10 ^ k < 10 := by
  rw [Nat.div_lt_iff_lt_mul (Nat.pos_pow_of_pos k (by norm_num))]
  calc n < 10 ^ (k + 1) := hn
    _ = 10 * 10 ^ k := by ring

theorem digitsBE_all_digit :
    ∀ (k n : ℕ), n < 10 ^ k → (digitsBE k n).all Char.isDigit = true := by
  intro k
  induction k with
  | zero => intro n _; rfl
  | succ k ih =>
    intro n hn
    rw [digitsBE, List.all_cons]
    rw [digCh_isDigit _ (div_pow_lt_ten hn),
      ih _ (Nat.mod_lt _ (Nat.pos_pow_of_pos k (by norm_num)))]
    rfl

theorem digitsBE_no_dash :
    ∀ (k n : ℕ), n < 10 ^ k → '-' ∉ digitsBE k n := by
  intro k
  induction k with
  | zero => intro n _; simp [digitsBE]
  | succ k ih =>
    intro n hn
    rw [digitsBE, List.mem_cons]
    rintro (h | h)
    · exact digCh_ne_dash _ (div_pow_lt_ten hn) h.symm
    · exact ih _ (Nat.mod_lt _ (Nat.pos_pow_of_pos k (by norm_num))) h

theorem digitsVal_fold :
    ∀ (k n a : ℕ), n < 10 ^ k →
      (digitsBE k n).foldl (fun acc c => acc * 10 + (c.toNat - 48)) a
        = a * 10 ^ k + n := by
  intro k
  induction k with
  | zero =>
    intro n a hn
    interval_cases n
    simp [digitsBE]
  | succ k ih =>
    intro n a hn
    rw [digitsBE, List.foldl_cons,
      ih _ _ (Nat.mod_lt _ (Nat.pos_pow_of_pos k (by norm_num))),
      digCh_toNat _ (div_pow_lt_ten hn)]
    have hmod := Nat.div_add_mod n (10 ^ k)
    rw [Nat.add_sub_cancel_left]
    calc (a * 10 + n / 10 ^ k) * 10 ^ k + n % 10 ^ k
        = a * (10 ^ k * 10) + (10 ^ k * (n / 10 ^ k) + n % 10 ^ k) := by ring
      _ = a * 10 ^ (k + 1) + n := by rw [hmod]; ring

theorem digitsVal_digitsBE (k n : ℕ) (hn : n < 10 ^ k) :
    digitsVal (digitsBE k n) = n := by
  unfold digitsVal
  rw [digitsVal_fold k n 0 hn]
  omega

theorem digitsBE_lt_iff :
    ∀ (k n m : ℕ), n < 10 ^ k → m < 10 ^ k →
      (strLtL (digitsBE k n) (digitsBE k m) = true ↔ n < m) := by
  intro k
  induction k with
  | zero =>
    intro n m hn hm
    interval_cases n
    interval_cases m
    simp [digitsBE, strLtL]
  | succ k ih =>
    intro n m hn hm
    have hpos : 0 < 10 ^ k := Nat.pos_pow_of_pos k (by norm_num)
    have hdn : n / 10 ^ k < 10 := div_pow_lt_ten hn
    have hdm : m / 10 ^ k < 10 := div_pow_lt_ten hm
    rw [digitsBE, digitsBE]
    rcases Nat.lt_trichotomy (n / 10 ^ k) (m / 10 ^ k) with hlt | heq | hgt
    · have hchar : (digCh (n / 10 ^ k)).toNat < (digCh (m / 10 ^ k)).toNat := by
        rw [digCh_toNat _ hdn, digCh_toNat _ hdm]
        omega
      rw [show strLtL (digCh (n / 10 ^ k) :: digitsBE k (n % 10 ^ k))
          (digCh (m / 10 ^ k) :: digitsBE k (m % 10 ^ k))
          = true from by simp [strLtL, hchar]]
      simp only [true_iff]
      exact Nat.lt_of_div_lt_div hlt
    · have hchar : digCh (n / 10 ^ k) = digCh (m / 10 ^ k) := by rw [heq]
      have hntN : ¬ (digCh (n / 10 ^ k)).toNat < (digCh (m / 10 ^ k)).toNat := by
        rw [hchar]
        omega
      have hntM : ¬ (digCh (m / 10 ^ k)).toNat < (digCh (n / 10 ^ k)).toNat := by
        rw [hchar]
        omega
      rw [show strLtL (digCh (n / 10 ^ k) :: digitsBE k (n % 10 ^ k))
          (digCh (m / 10 ^ k) :: digitsBE k (m % 10 ^ k))
          = strLtL (digitsBE k (n % 10 ^ k)) (digitsBE k (m % 10 ^ k)) from by
        simp [strLtL, hntN, hntM]]
      rw [ih _ _ (Nat.mod_lt _ hpos) (Nat.mod_lt _ hpos)]
      have he1 := Nat.div_add_mod n (10 ^ k)
      have he2 := Nat.div_add_mod m (10 ^ k)
      constructor
      · intro h
        calc n = 10 ^ k * (n / 10 ^ k) + n % 10 ^ k := he1.symm
          _ = 10 ^ k * (m / 10 ^ k) + n % 10 ^ k := by rw [heq]
          _ < 10 ^ k * (m / 10 ^ k) + m % 10 ^ k := by omega
          _ = m := he2
      · intro h
        by_contra hc
        push_neg at hc
        have : m ≤ n := by
          calc m = 10 ^ k * (m / 10 ^ k) + m % 10 ^ k := he2.symm
            _ = 10 ^ k * (n / 10 ^ k) + m % 10 ^ k := by rw [heq]
            _ ≤ 10 ^ k * (n / 10 ^ k) + n % 10 ^ k := by omega
            _ = n := he1
        omega
    · have hchar : (digCh (m / 10 ^ k)).toNat < (digCh (n / 10 ^ k)).toNat := by
        rw [digCh_toNat _ hdn, digCh_toNat _ hdm]
        omega
      have hnot : ¬ (digCh (n / 10 ^ k)).toNat < (digCh (m / 10 ^ k)).toNat := by
        omega
      rw [show strLtL (digCh (n / 10 ^ k) :: digitsBE k (n % 10 ^ k))
          (digCh (m / 10 ^ k) :: digitsBE k (m % 10 ^ k))
          = false from by simp [strLtL, hnot, hchar]]
      simp only [Bool.false_eq_true, false_iff, not_lt]
      exact Nat.le_of_lt (Nat.lt_of_div_lt_div hgt)

/-! ### Splitting identifiers at the dash -/

theorem splitDashGo_all :
    ∀ (cs acc : List Char), '-' ∉ cs →
      splitDashGo acc cs = [acc.reverse ++ cs] := by
  intro cs
  induction cs with
  | nil => intro acc _; simp [splitDashGo]
  | cons c cs ih =>
    intro acc h
    rw [List.mem_cons] at h
    push_neg at h
    rw [splitDashGo, if_neg (fun hc => h.1 hc.symm), ih _ h.2]
    simp

theorem splitDashGo_pre :
    ∀ (pre acc rest : List Char), '-' ∉ pre →
      splitDashGo acc (pre ++ '-' :: rest)
        = (acc.reverse ++ pre) :: splitDash rest := by
  intro pre
  induction pre with
  | nil =>
    intro acc rest _
    rw [List.nil_append, splitDashGo, if_pos rfl]
    simp [splitDash]
  | cons c cs ih =>
    intro acc rest h
    rw [List.mem_cons] at h
    push_neg at h
    rw [List.cons_append, splitDashGo, if_neg (fun hc => h.1 hc.symm), ih _ _ h.2]
    simp

theorem mkId_data (p : String) (n : ℕ) (hn : n < 1000000) :
    (mkId p n).data = p.data ++ '-' :: digitsBE 6 n := by
  unfold mkId pyFormat06
  rw [if_pos hn]

theorem splitDash_mkId (p : String) (n : ℕ) (hdash : '-' ∉ p.data)
    (hn : n < 1000000) :
    (splitDash (mkId p n).data).getD 1 [] = digitsBE 6 n := by
  rw [mkId_data p n hn]
  unfold splitDash
  rw [splitDashGo_pre p.data [] (digitsBE 6 n) hdash]
  unfold splitDash
  rw [splitDashGo_all _ _ (digitsBE_no_dash 6 n hn)]
  rfl

theorem seqOf_mkId (p : String) (n : ℕ) (hdash : '-' ∉ p.data)
    (hn : n < 1000000) : seqOf (mkId p n) = n := by
  unfold seqOf
  rw [splitDash_mkId p n hdash hn]
  exact digitsVal_digitsBE 6 n hn

theorem pyIntNat_digitsBE (n : ℕ) (hn : n < 1000000) :
    pyIntNat (digitsBE 6 n) = some n := by
  unfold pyIntNat
  have hne : (digitsBE 6 n).isEmpty = false := by
    rw [digitsBE]
    rfl
  rw [if_pos ?_]
  · rw [digitsVal_digitsBE 6 n hn]
  · rw [hne, digitsBE_all_digit 6 n hn]
    rfl

theorem strLt_mkId (p : String) (n m : ℕ) (hn : n < 1000000)
    (hm : m < 1000000) :
    (strLt (mkId p n) (mkId p m) = true ↔ n < m) := by
  unfold strLt
  rw [mkId_data p n hn, mkId_data p m hm]
  have hsame : strLtL (p.data ++ '-' :: digitsBE 6 n)
      (p.data ++ '-' :: digitsBE 6 m)
      = strLtL (digitsBE 6 n) (digitsBE 6 m) := by
    rw [show p.data ++ '-' :: digitsBE 6 n
        = (p.data ++ ['-']) ++ digitsBE 6 n from by simp,
      show p.data ++ '-' :: digitsBE 6 m
        = (p.data ++ ['-']) ++ digitsBE 6 m from by simp,
      strLtL_append_same]
  rw [hsame]
  exact digitsBE_lt_iff 6 n m hn hm

/-! ### The identifier scan -/

theorem scanMaxGo_spec (l : List Student) :
    ∀ a : Student,
      ∃ s, l.foldl
          (fun acc s =>
            match acc with
            | none => some s
            | some t => if strLt t.student_id s.student_id then some s
                        else some t)
          (some a) = some s ∧
        (s = a ∨ s ∈ l) ∧
        strLt s.student_id a.student_id = false ∧
        ∀ t ∈ l, strLt s.student_id t.student_id = false := by
  induction l with
  | nil =>
    intro a
    refine ⟨a, rfl, Or.inl rfl, ?_, by simp⟩
    unfold strLt
    exact strLtL_irrefl _
  | cons x xs ih =>
    intro a
    by_cases hax : strLt a.student_id x.student_id = true
    · rw [List.foldl_cons]
      have hstep : (match (some a : Option Student) with
          | none => some x
          | some t => if strLt t.student_id x.student_id then some x
                      else some t) = some x := by
        show (if strLt a.student_id x.student_id then some x else some a)
          = some x
        rw [if_pos hax]
      rw [hstep]
      rcases ih x with ⟨s, hfold, hmem, hsx, hall⟩
      refine ⟨s, hfold, ?_, ?_, ?_⟩
      · rcases hmem with rfl | h
        · exact Or.inr (List.mem_cons_self _ _)
        · exact Or.inr (List.mem_cons_of_mem _ h)
      · cases hsa : strLt s.student_id a.student_id with
        | false => rfl
        | true =>
          exfalso
          have := strLtL_trans (a := s.student_id.data)
            (b := a.student_id.data) (c := x.student_id.data) hsa hax
          rw [show strLtL s.student_id.data x.student_id.data
              = strLt s.student_id x.student_id from rfl, hsx] at this
          exact Bool.false_ne_true this
      · intro t ht
        rcases List.mem_cons.mp ht with rfl | h
        · exact hsx
        · exact hall t h
    · rw [List.foldl_cons]
      have hstep : (match (some a : Option Student) with
          | none => some x
          | some t => if strLt t.student_id x.student_id then some x
                      else some t) = some a := by
        show (if strLt a.student_id x.student_id then some x else some a)
          = some a
        rw [if_neg hax]
      rw [hstep]
      rcases ih a with ⟨s, hfold, hmem, hsa, hall⟩
      refine ⟨s, hfold, ?_, hsa, ?_⟩
      · rcases hmem with rfl | h
        · exact Or.inl rfl
        · exact Or.inr (List.mem_cons_of_mem _ h)
      · intro t ht
        rcases List.mem_cons.mp ht with rfl | h
        · cases hst : strLt s.student_id t.student_id with
          | false => rfl
          | true =>
            exfalso
            rcases strLtL_trichotomy t.student_id.data a.student_id.data
              with h1 | h1 | h1
            · have := strLtL_trans (a := s.student_id.data) hst h1
              rw [show strLtL s.student_id.data a.student_id.data
                  = strLt s.student_id a.student_id from rfl, hsa] at this
              exact Bool.false_ne_true this
            · have h2 : strLt s.student_id t.student_id
                  = strLt s.student_id a.student_id := by
                unfold strLt
                rw [h1]
              rw [h2, hsa] at hst
              exact Bool.false_ne_true hst
            · exact hax h1
        · exact hall t h

theorem scanMax_spec (l : List Student) (hne : l ≠ []) :
    ∃ s ∈ l, scanMax l = some s ∧
      ∀ t ∈ l, strLt s.student_id t.student_id = false := by
  match l, hne with
  | x :: xs, _ =>
    unfold scanMax
    rw [List.foldl_cons]
    rcases scanMaxGo_spec xs x with ⟨s, hfold, hmem, hsx, hall⟩
    refine ⟨s, ?_, hfold, ?_⟩
    · rcases hmem with rfl | h
      · exact List.mem_cons_self _ _
      · exact List.mem_cons_of_mem _ h
    · intro t ht
      rcases List.mem_cons.mp ht with rfl | h
      · exact hsx
      · exact hall t h

/-! ### The next sequence number -/

theorem codeNextSeq_spec (table : List Student) (p : String)
    (hdash : '-' ∉ p.data)
    (hcanon : ∀ s ∈ table, idStarts (p ++ "-") s = true →
      ∃ n, n < 1000000 ∧ s.student_id = mkId p n) :
    codeNextSeq table p = some (specNextSeq table p) := by
  have hcanonf : ∀ s ∈ table.filter (idStarts (p ++ "-")),
      ∃ n, n < 1000000 ∧ s.student_id = mkId p n := by
    intro s hs
    rw [List.mem_filter] at hs
    exact hcanon s hs.1 hs.2
  cases hf : table.filter (idStarts (p ++ "-")) with
  | nil =>
    unfold codeNextSeq specNextSeq
    rw [hf]
    rfl
  | cons y ys =>
    rcases scanMax_spec (y :: ys) (by simp) with ⟨smax, hsmem, hscan, hmax⟩
    rcases hcanonf smax (hf ▸ hsmem) with ⟨nmax, hnmax, hid⟩
    have hparse : (pyIntNat ((splitDash smax.student_id.data).getD 1 []))
        = some nmax := by
      rw [hid, splitDash_mkId p nmax hdash hnmax]
      exact pyIntNat_digitsBE nmax hnmax
    have hcode : codeNextSeq table p = some (nmax + 1) := by
      unfold codeNextSeq
      rw [hf, hscan]
      show (pyIntNat ((splitDash smax.student_id.data).getD 1 [])).map (· + 1)
        = some (nmax + 1)
      rw [hparse]
      rfl
    have hmaxval : (y :: ys).foldl (fun m s => max m (seqOf s.student_id)) 0
        = nmax := by
      have hle : ∀ t ∈ y :: ys, seqOf t.student_id ≤ nmax := by
        intro t ht
        rcases hcanonf t (hf ▸ ht) with ⟨nt, hnt, hidt⟩
        have hnlt := hmax t ht
        rw [hid, hidt] at hnlt
        have : ¬ nmax < nt := by
          intro hc
          rw [(strLt_mkId p nmax nt hnmax hnt).mpr hc] at hnlt
          simp at hnlt
        rw [hidt, seqOf_mkId p nt hdash hnt]
        omega
      have hfold_map : (y :: ys).foldl
          (fun m s => max m (seqOf s.student_id)) 0
          = ((y :: ys).map (fun s => seqOf s.student_id)).foldl max 0 := by
        rw [List.foldl_map]
      rw [hfold_map]
      have hmem2 : nmax ∈ (y :: ys).map (fun s => seqOf s.student_id) := by
        rw [List.mem_map]
        exact ⟨smax, hsmem, by rw [hid, seqOf_mkId p nmax hdash hnmax]⟩
      have h1 : nmax ≤ ((y :: ys).map (fun s => seqOf s.student_id)).foldl
          max 0 :=
        le_foldl_max _ 0 nmax (List.mem_cons_of_mem _ hmem2)
      have h2 := foldl_max_mem ((y :: ys).map (fun s => seqOf s.student_id)) 0
      rcases List.mem_cons.mp h2 with hz | hm
      · rw [hz] at h1 ⊢
        omega
      · rcases List.mem_map.mp hm with ⟨t, ht, hval⟩
        have := hle t ht
        omega
    rw [hcode]
    simp only [specNextSeq]
    rw [hf]
    rw [if_neg (by simp)]
    rw [hmaxval]

/-! ### The import loop -/

theorem import_fold (p : String) :
    ∀ (rows : List CsvRow) (st : ImpState),
      ((st.table.map (fun s => s.name)).Nodup) →
      ∃ created newRoster,
        (rows.foldl (importStep p) st).table = st.table ++ created ∧
        (rows.foldl (importStep p) st).roster = st.roster ++ newRoster ∧
        (rows.foldl (importStep p) st).seq = st.seq + created.length ∧
        created.map (fun s => s.student_id)
          = (List.range created.length).map (fun i => mkId p (st.seq + i)) ∧
        (∀ c ∈ created, c.name ∉ st.table.map (fun s => s.name)) ∧
        ((st.table ++ created).map (fun s => s.name)).Nodup ∧
        newRoster.map (fun s => s.name) = rows.map normName ∧
        (∀ s ∈ newRoster, s ∈ st.table ++ created) := by
  intro rows
  induction rows with
  | nil =>
    intro st hnd
    refine ⟨[], [], by simp, by simp, by simp, by simp, by simp, ?_, by simp,
      by simp⟩
    simpa using hnd
  | cons row rest ih =>
    intro st hnd
    rw [List.foldl_cons]
    cases hfind : st.table.find? (fun s => s.name = normName row) with
    | some s0 =>
      have hstep : importStep p st row
          = { st with roster := st.roster ++ [s0] } := by
        simp only [importStep]
        rw [hfind]
      rw [hstep]
      rcases ih { st with roster := st.roster ++ [s0] } hnd with
        ⟨created, newRoster, htab, hros, hseq, hids, hfresh, hnd2, hnames,
          hsub⟩
      refine ⟨created, s0 :: newRoster, htab, ?_, hseq, hids, hfresh, hnd2,
        ?_, ?_⟩
      · rw [hros]
        simp
      · rw [List.map_cons, hnames, List.map_cons]
        have : s0.name = normName row := by
          simpa using List.find?_some hfind
        rw [this]
      · intro s hs
        rcases List.mem_cons.mp hs with rfl | h
        · exact List.mem_append_left _ (List.mem_of_find?_eq_some hfind)
        · exact hsub s h
    | none =>
      have hstep : importStep p st row
          = { table := st.table ++ [⟨st.nextPk, mkId p st.seq, normName row⟩]
              roster := st.roster ++ [⟨st.nextPk, mkId p st.seq, normName row⟩]
              seq := st.seq + 1
              nextPk := st.nextPk + 1 } := by
        simp only [importStep]
        rw [hfind]
      rw [hstep]
      have hnotin : normName row ∉ st.table.map (fun s => s.name) := by
        intro hmem
        rcases List.mem_map.mp hmem with ⟨s, hs, hname⟩
        have := List.find?_eq_none.mp hfind s hs
        simp [hname] at this
      have hnd' : (((st.table
          ++ [(⟨st.nextPk, mkId p st.seq, normName row⟩ : Student)]).map
          (fun s => s.name)).Nodup) := by
        rw [List.map_append, List.nodup_append]
        refine ⟨hnd, by simp, ?_⟩
        intro nm hnm
        simp only [List.map_cons, List.map_nil, List.mem_singleton]
        rintro rfl
        exact hnotin hnm
      rcases ih
        { table := st.table
            ++ [(⟨st.nextPk, mkId p st.seq, normName row⟩ : Student)]
          roster := st.roster
            ++ [(⟨st.nextPk, mkId p st.seq, normName row⟩ : Student)]
          seq := st.seq + 1
          nextPk := st.nextPk + 1 } hnd' with
        ⟨created, newRoster, htab, hros, hseq, hids, hfresh, hnd2, hnames,
          hsub⟩
      refine ⟨(⟨st.nextPk, mkId p st.seq, normName row⟩ : Student) :: created,
        (⟨st.nextPk, mkId p st.seq, normName row⟩ : Student) :: newRoster,
        ?_, ?_, ?_, ?_, ?_, ?_, ?_, ?_⟩
      · rw [htab]
        simp
      · rw [hros]
        simp
      · rw [hseq]
        simp only [List.length_cons]
        omega
      · rw [List.map_cons, hids]
        simp only [List.length_cons]
        rw [List.range_succ_eq_map, List.map_cons, List.map_map]
        congr 1
        apply List.map_congr_left
        intro i _
        simp only [Function.comp_apply]
        congr 1
        omega
      · intro c hc
        rcases List.mem_cons.mp hc with rfl | h
        · exact hnotin
        · intro hmem
          apply hfresh c h
          rw [List.map_append]
          exact List.mem_append_left _ hmem
      · rw [show st.table ++ ⟨st.nextPk, mkId p st.seq, normName row⟩ :: created
            = (st.table ++ [⟨st.nextPk, mkId p st.seq, normName row⟩])
              ++ created from by simp]
        exact hnd2
      · rw [List.map_cons, hnames, List.map_cons]
      · intro s hs
        rcases List.mem_cons.mp hs with rfl | h
        · rw [show st.table
                ++ (⟨st.nextPk, mkId p st.seq, normName row⟩ : Student) :: created
              = (st.table ++ [(⟨st.nextPk, mkId p st.seq, normName row⟩ : Student)])
                ++ created from by simp]
          exact List.mem_append_left _ (List.mem_append_right _ (by simp))
        · have := hsub s h
          rw [show st.table
                ++ (⟨st.nextPk, mkId p st.seq, normName row⟩ : Student) :: created
              = (st.table ++ [(⟨st.nextPk, mkId p st.seq, normName row⟩ : Student)])
                ++ created from by simp]
          exact this

/-- C2 (amended): the importer treats rows whose names normalize
identically (trim, title-case) as the same student, reuses an existing
student with that exact normalized name without touching its identifier,
and allocates `"<yy>-<seq:06d>"` identifiers to genuinely new names with
consecutive sequence numbers starting from the scan result — which, on a
table whose matching identifiers are all canonically formatted (zero
padded six-digit), is one greater than the highest existing sequence (or
1 if none exist); the counter advances only on creation.  Importing
`["ana cruz", "Ana Cruz", "Ben Lee"]` into an empty table creates
exactly `26-000001` for Ana Cruz and `26-000002` for Ben Lee. -/
theorem importer_dedup_and_sequence (table : List Student) (p : String)
    (nextPk : ℕ) (rows : List CsvRow)
    (hdash : '-' ∉ p.data)
    (hnames : (table.map (fun s => s.name)).Nodup)
    (hcanon : ∀ s ∈ table, idStarts (p ++ "-") s = true →
      ∃ n, n < 1000000 ∧ s.student_id = mkId p n) :
    ∃ fTable roster created,
      importStudents table p nextPk rows = some (fTable, roster) ∧
      fTable = table ++ created ∧
      created.map (fun s => s.student_id)
        = (List.range created.length).map
            (fun i => mkId p (specNextSeq table p + i)) ∧
      (∀ c ∈ created, c.name ∉ table.map (fun s => s.name)) ∧
      roster.map (fun s => s.name) = rows.map normName ∧
      (∀ s ∈ roster, s ∈ fTable) ∧
      (∀ s1 ∈ fTable, ∀ s2 ∈ fTable, s1.name = s2.name → s1 = s2) ∧
      importStudents [] "26" 1
          [⟨some "ana cruz"⟩, ⟨some "Ana Cruz"⟩, ⟨some "Ben Lee"⟩]
        = some ([⟨1, "26-000001", "Ana Cruz"⟩, ⟨2, "26-000002", "Ben Lee"⟩],
                [⟨1, "26-000001", "Ana Cruz"⟩, ⟨1, "26-000001", "Ana Cruz"⟩,
                 ⟨2, "26-000002", "Ben Lee"⟩]) := by
  have hseq := codeNextSeq_spec table p hdash hcanon
  rcases import_fold p rows ⟨table, [], specNextSeq table p, nextPk⟩ hnames
    with ⟨created, newRoster, htab, hros, _, hids, hfresh, hnd2, hnames2,
      hsub⟩
  refine ⟨(rows.foldl (importStep p)
      ⟨table, [], specNextSeq table p, nextPk⟩).table,
    (rows.foldl (importStep p)
      ⟨table, [], specNextSeq table p, nextPk⟩).roster,
    created, ?_, htab, hids, hfresh, ?_, ?_, ?_, rfl⟩
  · unfold importStudents
    rw [hseq]
    rfl
  · rw [hros]
    simpa using hnames2
  · intro s hs
    rw [htab]
    rw [hros] at hs
    exact hsub s (by simpa using hs)
  · intro s1 h1 s2 h2 heq
    rw [htab] at h1 h2
    exact List.inj_on_of_nodup_map hnd2 h1 h2 heq

/-- Witness for C2 at the dedup example itself (empty table, year
pattern "26"). -/
theorem importer_dedup_and_sequence_witness :
    importStudents [] "26" 1
        [⟨some "ana cruz"⟩, ⟨some "Ana Cruz"⟩, ⟨some "Ben Lee"⟩]
      = some ([⟨1, "26-000001", "Ana Cruz"⟩, ⟨2, "26-000002", "Ben Lee"⟩],
              [⟨1, "26-000001", "Ana Cruz"⟩, ⟨1, "26-000001", "Ana Cruz"⟩,
               ⟨2, "26-000002", "Ben Lee"⟩]) := by
  obtain ⟨fT, ro, cr, h⟩ := importer_dedup_and_sequence [] "26" 1
    [⟨some "x"⟩] (by decide) (by simp) (by intro s hs; simp at hs)
  exact h.2.2.2.2.2.2.2

/-- C2, counterexample to the original wording: the scan takes the
lexicographically greatest matching identifier, not the numerically
greatest sequence.  With existing ids `26-9` and `26-000012`, the string
scan picks `26-9`, so the next student gets `26-000010` although the
highest existing sequence is 12 (the claim would demand `26-000013`). -/
theorem import_seq_scan_is_lexicographic :
    importStudents [⟨1, "26-9", "A"⟩, ⟨2, "26-000012", "B"⟩] "26" 3
        [⟨some "carl"⟩]
      = some ([⟨1, "26-9", "A"⟩, ⟨2, "26-000012", "B"⟩,
               ⟨3, "26-000010", "Carl"⟩],
              [⟨3, "26-000010", "Carl"⟩]) ∧
    specNextSeq [⟨1, "26-9", "A"⟩, ⟨2, "26-000012", "B"⟩] "26" = 13 ∧
    mkId "26" 13 = "26-000013" ∧
    ("26-000010" : String) ≠ "26-000013" := by
  refine ⟨rfl, rfl, rfl, by decide⟩

end Gradely
